import Mathlib

/-!
# MT19937 generator of `projet2.c`

A shallow embedding of the generator core of `projet2.c` (the state array `mt`,
the cursor `mti`, the two seeding procedures, the twist and the tempering) and
of its derived outputs, followed by theorems about it.

Conventions of the embedding.

* `unsigned long` is the 64-bit word of an LP64 platform: a value is a `Nat`
  and every operation that can overflow (multiplication, addition, subtraction,
  left shift) is followed by `% ULONG_SIZE`.
* `mt` is a list of exactly `N` words (the length is part of the state); `mti`
  is the `int` cursor, which never becomes negative and is a `Nat`.
* A C function that mutates the globals takes the state as an argument and
  returns the new state (with the C return value in front when there is one).
* A `for` loop is a recursion on a counter; the loop guard of the source is
  tested at every round.
* `init_key` is a list and reading it outside its bounds is undefined
  behaviour, rendered as `none`.
* The real-valued outputs of the generator are exact rationals; `uniform`, whose double
  operations round, is computed with binary64 rounding made explicit.
-/

namespace MT19937

/-! ## Period parameters -/

def N : Nat := 624
def M : Nat := 397
/-- Constant vector a. -/
def MATRIX_A : Nat := 0x9908b0df
/-- Most significant w-r bits. -/
def UPPER_MASK : Nat := 0x80000000
/-- Least significant r bits. -/
def LOWER_MASK : Nat := 0x7fffffff

/-- Number of values of an `unsigned long` (64 bits). -/
def ULONG_SIZE : Nat := 2 ^ 64

/-! ## State -/

/-- The globals `mt[N]` and `mti`. -/
structure State where
  mt : List Nat
  mti : Nat
  hlen : mt.length = N

/-- The value of `mt[i]`. -/
def State.read (st : State) (i : Nat) : Nat := st.mt.getD i 0

/-- The assignment `mt[i] = v`. -/
def State.write (st : State) (i v : Nat) : State :=
  ⟨st.mt.set i v, st.mti, by rw [List.length_set]; exact st.hlen⟩

/-- The assignment `mti = k`. -/
def State.setMti (st : State) (k : Nat) : State := ⟨st.mt, k, st.hlen⟩

/-- The state at program start: `static` storage is zeroed and `mti = N+1`. -/
def initial : State := ⟨List.replicate 624 0, N + 1, List.length_replicate 624 0⟩

/-! ## Seeding -/

/-- The loop `for (mti=1; mti<N; mti++)` of `init_genrand`, entered with the current `mti`. -/
def init_genrand_loop : Nat → State → State
  | 0, st => st
  | fuel + 1, st =>
    if st.mti < N then
      let prev := st.read (st.mti - 1)
      let st1 := st.write st.mti
        ((1812433253 * (prev ^^^ (prev >>> 30)) % ULONG_SIZE + st.mti) % ULONG_SIZE)
      let st2 := st1.write st1.mti (st1.read st1.mti &&& 0xffffffff)
      init_genrand_loop fuel (st2.setMti (st2.mti + 1))
    else st

/-- Initializes `mt[N]` with a seed. -/
def init_genrand (s : Nat) (st : State) : State :=
  init_genrand_loop N ((st.write 0 (s &&& 0xffffffff)).setMti 1)

/-- The two statements `if (i>=N) { mt[0] = mt[N-1]; i=1; }`. -/
def wrap_i (i : Nat) (st : State) : Nat × State :=
  if i ≥ N then (1, st.write 0 (st.read (N - 1))) else (i, st)

/-- The first loop `for (; k; k--)` of `init_by_array`; the counter is `k`. -/
def init_by_array_loop1 (init_key : List Nat) (key_length : Int) :
    Nat → Nat → Nat → State → Option (Nat × State)
  | 0, i, _, st => some (i, st)
  | k + 1, i, j, st =>
    match init_key[j]? with
    | none => none
    | some kj =>
      let prev := st.read (i - 1)
      let mixed := st.read i ^^^ ((prev ^^^ (prev >>> 30)) * 1664525 % ULONG_SIZE)
      let st1 := st.write i (((mixed + kj) % ULONG_SIZE + j) % ULONG_SIZE)
      let st2 := st1.write i (st1.read i &&& 0xffffffff)
      let r := wrap_i (i + 1) st2
      let j2 := if ((j + 1 : Nat) : Int) ≥ key_length then 0 else j + 1
      init_by_array_loop1 init_key key_length k r.1 j2 r.2

/-- The second loop `for (k=N-1; k; k--)` of `init_by_array`. -/
def init_by_array_loop2 : Nat → Nat → State → Nat × State
  | 0, i, st => (i, st)
  | k + 1, i, st =>
    let prev := st.read (i - 1)
    let mixed := st.read i ^^^ ((prev ^^^ (prev >>> 30)) * 1566083941 % ULONG_SIZE)
    let st1 := st.write i ((mixed + ULONG_SIZE - i) % ULONG_SIZE)
    let st2 := st1.write i (st1.read i &&& 0xffffffff)
    let r := wrap_i (i + 1) st2
    init_by_array_loop2 k r.1 r.2

/-- Initialize by an array with array-length; `none` when the run reads outside `init_key`. -/
def init_by_array (init_key : List Nat) (key_length : Int) (st : State) : Option State :=
  let st0 := init_genrand 19650218 st
  let k : Int := if (N : Int) > key_length then (N : Int) else key_length
  match init_by_array_loop1 init_key key_length k.toNat 1 0 st0 with
  | none => none
  | some r1 =>
    let r2 := init_by_array_loop2 (N - 1) r1.1 r1.2
    some (r2.2.write 0 0x80000000)

/-! ## Generation -/

/-- The table `mag01[x] = x * MATRIX_A` for `x = 0, 1`. -/
def mag01 (x : Nat) : Nat := if x = 0 then 0 else MATRIX_A

/-- One round of the twist: `y = (mt[kk]&UPPER_MASK)|(mt[nxt]&LOWER_MASK)` followed by
`mt[kk] = mt[src] ^ (y >> 1) ^ mag01[y & 0x1UL]`. -/
def twist_step (st : State) (kk nxt src : Nat) : State :=
  let y := (st.read kk &&& UPPER_MASK) ||| (st.read nxt &&& LOWER_MASK)
  st.write kk (st.read src ^^^ (y >>> 1) ^^^ mag01 (y &&& 1))

/-- The loop `for (kk=0;kk<N-M;kk++)`. -/
def twist_loop1 : Nat → Nat → State → Nat × State
  | 0, kk, st => (kk, st)
  | fuel + 1, kk, st =>
    if kk < N - M then twist_loop1 fuel (kk + 1) (twist_step st kk (kk + 1) (kk + M))
    else (kk, st)

/-- The loop `for (;kk<N-1;kk++)`; there `kk >= N-M`, so `kk+(M-N)` is `kk + M - N`. -/
def twist_loop2 : Nat → Nat → State → Nat × State
  | 0, kk, st => (kk, st)
  | fuel + 1, kk, st =>
    if kk < N - 1 then twist_loop2 fuel (kk + 1) (twist_step st kk (kk + 1) (kk + M - N))
    else (kk, st)

/-- The block `if (mti >= N) { ... }` of `genrand_int32`, entered with `mti >= N`. -/
def generate (st : State) : State :=
  let sa := if st.mti = N + 1 then init_genrand 5489 st else st
  let r1 := twist_loop1 N 0 sa
  let r2 := twist_loop2 N r1.1 r1.2
  (twist_step r2.2 (N - 1) 0 (M - 1)).setMti 0

/-- Tempering, on an `unsigned long`. -/
def temper (y0 : Nat) : Nat :=
  let y1 := y0 ^^^ (y0 >>> 11)
  let y2 := y1 ^^^ ((y1 <<< 7) % ULONG_SIZE &&& 0x9d2c5680)
  let y3 := y2 ^^^ ((y2 <<< 15) % ULONG_SIZE &&& 0xefc60000)
  y3 ^^^ (y3 >>> 18)

/-- Generates a random number on [0,0xffffffff]-interval. -/
def genrand_int32 (st : State) : Nat × State :=
  let st1 := if st.mti ≥ N then generate st else st
  (temper (st1.read st1.mti), st1.setMti (st1.mti + 1))

/-- The conversion `(long)x` of an `unsigned long`. -/
def toLong (x : Nat) : Int := if x < 2 ^ 63 then (x : Int) else (x : Int) - 2 ^ 64

/-- Generates a random number on [0,0x7fffffff]-interval. -/
def genrand_int31 (st : State) : Int × State :=
  let r := genrand_int32 st
  (toLong (r.1 >>> 1), r.2)

/-- Generates a random number on [0,1]-real-interval. -/
def genrand_real1 (st : State) : ℚ × State :=
  let r := genrand_int32 st
  ((r.1 : ℚ) * (1 / 4294967295), r.2)

/-- Generates a random number on [0,1)-real-interval. -/
def genrand_real2 (st : State) : ℚ × State :=
  let r := genrand_int32 st
  ((r.1 : ℚ) * (1 / 4294967296), r.2)

/-- Generates a random number on (0,1)-real-interval. -/
def genrand_real3 (st : State) : ℚ × State :=
  let r := genrand_int32 st
  (((r.1 : ℚ) + 1 / 2) * (1 / 4294967296), r.2)

/-- Generates a random number on [0,1) with 53-bit resolution. -/
def genrand_res53 (st : State) : ℚ × State :=
  let ra := genrand_int32 st
  let a := ra.1 >>> 5
  let rb := genrand_int32 ra.2
  let b := rb.1 >>> 6
  (((a : ℚ) * 67108864 + (b : ℚ)) * (1 / 9007199254740992), rb.2)

/-! ### Double arithmetic

`uniform` computes with operations that round. A finite `double` is the rational it stands
for; an operation yields the exact result rounded to the nearest binary64 number, ties to
even, and `none` when that rounding overflows. Each operation is rounded on its own. -/

/-- Exponent of the unit in the last place of the binary64 numbers of the magnitude of `x`:
significands have 53 bits and the least exponent of a normal number is `-1022`. -/
def ulpExp (x : ℚ) : Int := if x = 0 then -1074 else max (Int.log 2 |x|) (-1022) - 52

/-- The integer nearest to `q`, the even one of the two when `q` is half-way. -/
def roundHalfEven (q : ℚ) : Int :=
  if q - ⌊q⌋ < 1 / 2 then ⌊q⌋
  else if 1 / 2 < q - ⌊q⌋ then ⌊q⌋ + 1
  else if ⌊q⌋ % 2 = 0 then ⌊q⌋ else ⌊q⌋ + 1

/-- Rounding to the nearest number with a 53-bit significand, ties to even, gradual
underflow, exponent not bounded above. -/
def rnd (x : ℚ) : ℚ := (roundHalfEven (x / 2 ^ ulpExp x) : ℚ) * 2 ^ ulpExp x

/-- The `double` that an operation with exact result `x` returns; `none` when it overflows
(the operation returns an infinity). -/
def fl (x : ℚ) : Option ℚ := if |rnd x| < 2 ^ (1024 : Int) then some (rnd x) else none

/-- The rational `a` is a finite `double`. -/
def IsDouble (a : ℚ) : Prop := fl a = some a

/-- Question 2: a pseudo-random number between `a` and `b`, `(genrand_real2()*(b-a))+a` in
double arithmetic: the subtraction, the product and the sum are each rounded (the value of
`genrand_real2` is a `double` as it stands); `none` when an operation overflows. -/
def uniform (a b : ℚ) (st : State) : Option ℚ × State :=
  let r := genrand_real2 st
  ((fl (b - a)).bind (fun d => (fl (r.1 * d)).bind (fun p => fl (p + a))), r.2)

/-- Question 4a: the value `1.0 - genrand_real1()` that `negExp` passes to `log`. -/
def negExp_log_arg (st : State) : ℚ × State :=
  let r := genrand_real1 st
  (1 - r.1, r.2)

/-- The values returned by `k` successive calls of `genrand_int32`, and the state left. -/
def draws : Nat → State → List Nat × State
  | 0, st => ([], st)
  | k + 1, st =>
    let r := genrand_int32 st
    let rs := draws k r.2
    (r.1 :: rs.1, rs.2)

/-! ## Reference definitions, following the specification -/

/-- Scalar seeding as the specification gives it: word `0` is the seed and word `i` is
`(1812433253 * (w XOR (w >> 30)) + i) mod 2^32` for `w` the word before it. -/
def seedWord (s : Nat) : Nat → Nat
  | 0 => s % 2 ^ 32
  | i + 1 => (1812433253 * (seedWord s i ^^^ (seedWord s i >>> 30)) + (i + 1)) % 2 ^ 32

/-- The tempering transform with all arithmetic taken modulo `2^32`. -/
def temper32 (y0 : Nat) : Nat :=
  let y1 := (y0 ^^^ (y0 >>> 11)) % 2 ^ 32
  let y2 := (y1 ^^^ ((y1 <<< 7) % 2 ^ 32 &&& 0x9d2c5680)) % 2 ^ 32
  let y3 := (y2 ^^^ ((y2 <<< 15) % 2 ^ 32 &&& 0xefc60000)) % 2 ^ 32
  (y3 ^^^ (y3 >>> 18)) % 2 ^ 32

/-- The inverse of the tempering modulo `2^32`: each of the four steps is undone in turn, the
last first, by iterating the step on the word to recover. -/
def untemper32 (z : Nat) : Nat :=
  let y3 := (z ^^^ (z >>> 18)) % 2 ^ 32
  let a1 := (y3 ^^^ ((y3 <<< 15) % 2 ^ 32 &&& 0xefc60000)) % 2 ^ 32
  let a2 := (y3 ^^^ ((a1 <<< 15) % 2 ^ 32 &&& 0xefc60000)) % 2 ^ 32
  let y2 := (y3 ^^^ ((a2 <<< 15) % 2 ^ 32 &&& 0xefc60000)) % 2 ^ 32
  let b1 := (y2 ^^^ ((y2 <<< 7) % 2 ^ 32 &&& 0x9d2c5680)) % 2 ^ 32
  let b2 := (y2 ^^^ ((b1 <<< 7) % 2 ^ 32 &&& 0x9d2c5680)) % 2 ^ 32
  let b3 := (y2 ^^^ ((b2 <<< 7) % 2 ^ 32 &&& 0x9d2c5680)) % 2 ^ 32
  let b4 := (y2 ^^^ ((b3 <<< 7) % 2 ^ 32 &&& 0x9d2c5680)) % 2 ^ 32
  let y1 := (y2 ^^^ ((b4 <<< 7) % 2 ^ 32 &&& 0x9d2c5680)) % 2 ^ 32
  let c1 := (y1 ^^^ (y1 >>> 11)) % 2 ^ 32
  let c2 := (y1 ^^^ (c1 >>> 11)) % 2 ^ 32
  (y1 ^^^ (c2 >>> 11)) % 2 ^ 32

/-- One round of the single-pass twist of the specification, at index `k`. -/
def spec_twist_step (st : State) (k : Nat) : State :=
  let y := (st.read k &&& 0x80000000) ||| (st.read ((k + 1) % 624) &&& 0x7fffffff)
  st.write k (st.read ((k + 397) % 624) ^^^ (y >>> 1) ^^^ (if y % 2 = 1 then 0x9908b0df else 0))

/-- The twist of the specification: one in-place pass over `k = 0, 1, ..., 623` in ascending
order, with indices taken modulo `624`. -/
def spec_twist (st : State) : State := (List.range 624).foldl spec_twist_step st

/-- The wraparound rule of the specification for the index `i` of array seeding: when `i`
reaches `624`, copy `words[623]` into `words[0]` and reset `i` to `1`. -/
def spec_wrap (i : Nat) (st : State) : Nat × State :=
  if i = 624 then (1, st.write 0 (st.read 623)) else (i, st)

/-- The first mixing pass of array seeding as the specification gives it, for `n` iterations;
the arithmetic is that of the integers, reduced modulo `2^32` at the end. -/
def spec_mix1 (key : List Nat) : Nat → Nat → Nat → State → Nat × State
  | 0, i, _, st => (i, st)
  | n + 1, i, j, st =>
    let w := st.read (i - 1)
    let st1 := st.write i
      (((st.read i ^^^ ((w ^^^ (w >>> 30)) * 1664525)) + key.getD j 0 + j) % 2 ^ 32)
    let r := spec_wrap (i + 1) st1
    spec_mix1 key n r.1 (if j + 1 = key.length then 0 else j + 1) r.2

/-- The second mixing pass of array seeding as the specification gives it, for `n` iterations;
the subtraction is that of the integers, reduced modulo `2^32`. -/
def spec_mix2 : Nat → Nat → State → Nat × State
  | 0, i, st => (i, st)
  | n + 1, i, st =>
    let w := st.read (i - 1)
    let st1 := st.write i
      ((((st.read i ^^^ ((w ^^^ (w >>> 30)) * 1566083941) : Nat) : Int) - (i : Int)) % 2 ^ 32).toNat
    let r := spec_wrap (i + 1) st1
    spec_mix2 n r.1 r.2

/-- Array seeding as the specification gives it, from the state left by scalar seeding with
`19650218`. -/
def spec_init_by_array (key : List Nat) (st : State) : State :=
  let r1 := spec_mix1 key (max 624 key.length) 1 0 (init_genrand 19650218 st)
  let r2 := spec_mix2 623 r1.1 r1.2
  (r2.2.write 0 0x80000000).setMti 624

/-- The effective 19937-bit state (the top bit of `words[0]` together with `words[1..623]`)
is all zero. -/
def EffectiveZero (st : State) : Prop :=
  st.read 0 &&& 0x80000000 = 0 ∧ ∀ i : Fin 623, st.read (i.val + 1) = 0

/-- Closed form of the first pass of array seeding, for a key of at most `624` elements: the
word at index `i` once the pass has written it for the first time (index `0`: the seed
word). -/
def mix1Word (key : List Nat) : Nat → Nat
  | 0 => seedWord 19650218 0
  | i + 1 =>
    ((seedWord 19650218 (i + 1) ^^^ ((mix1Word key i ^^^ (mix1Word key i >>> 30)) * 1664525))
      + key.getD (i % key.length) 0 + i % key.length) % 2 ^ 32

/-- Closed form of the word at index `1` after the last round of the first pass, which
follows the wraparound of `i`. -/
def mix1Last (key : List Nat) : Nat :=
  ((mix1Word key 1 ^^^ ((mix1Word key 623 ^^^ (mix1Word key 623 >>> 30)) * 1664525))
    + key.getD (623 % key.length) 0 + 623 % key.length) % 2 ^ 32

/-- Closed form of the second pass of array seeding: the word at index `p >= 1` once the pass
has written it for the first time (index `1`: the word the first pass left there). -/
def mix2Word (key : List Nat) : Nat → Nat
  | 0 => 0
  | p + 1 =>
    if p = 0 then mix1Last key
    else ((((mix1Word key (p + 1) ^^^ ((mix2Word key p ^^^ (mix2Word key p >>> 30)) * 1566083941)
      : Nat) : Int) - ((p + 1 : Nat) : Int)) % 2 ^ 32).toNat

/-- Closed form of the word at index `1` after the last round of the second pass. -/
def mix2Last (key : List Nat) : Nat :=
  ((((mix2Word key 1 ^^^ ((mix2Word key 623 ^^^ (mix2Word key 623 >>> 30)) * 1566083941)
    : Nat) : Int) - ((1 : Nat) : Int)) % 2 ^ 32).toNat

/-- All `N` words are below `2^32`. -/
def Words32 (st : State) : Prop := ∀ w ∈ st.mt, w < 2 ^ 32

/-- The state invariant of the specification: the cursor is at most `N` and all words are
in `[0, 2^32 - 1]`. -/
def Inv (st : State) : Prop := st.mti ≤ N ∧ Words32 st

end MT19937

namespace MT19937

/-! ## Reading and writing the state -/

@[simp] theorem mti_write (st : State) (i v : Nat) : (st.write i v).mti = st.mti := rfl

@[simp] theorem mti_setMti (st : State) (k : Nat) : (st.setMti k).mti = k := rfl

@[simp] theorem mt_setMti (st : State) (k : Nat) : (st.setMti k).mt = st.mt := rfl

@[simp] theorem read_setMti (st : State) (k i : Nat) : (st.setMti k).read i = st.read i := rfl

theorem read_write (st : State) (i v j : Nat) :
    (st.write i v).read j = if i = j ∧ i < N then v else st.read j := by
  unfold State.read State.write
  simp only [List.getD_eq_getElem?_getD, List.getElem?_set, st.hlen]
  by_cases h : i = j
  · subst h
    by_cases h2 : i < N
    · simp [h2]
    · simp only [h2, and_false, if_false]
      rw [List.getElem?_eq_none (by rw [st.hlen]; omega)]
      simp
  · simp [h]

theorem read_write_same (st : State) (i v : Nat) (h : i < N) : (st.write i v).read i = v := by
  rw [read_write]; simp [h]

theorem read_write_ne (st : State) (i v j : Nat) (h : i ≠ j) :
    (st.write i v).read j = st.read j := by
  rw [read_write]; simp [h]

theorem read_eq_getElem (st : State) (i : Nat) (h : i < st.mt.length) : st.read i = st.mt[i] := by
  unfold State.read
  exact List.getD_eq_getElem _ _ h

/-- Two states with the same cursor and the same `N` words are equal. -/
theorem State.ext_read (a b : State) (hm : a.mti = b.mti)
    (hr : ∀ j, j < N → a.read j = b.read j) : a = b := by
  cases a with
  | mk amt amti ah =>
    cases b with
    | mk bmt bmti bh =>
      simp only at hm
      subst hm
      have : amt = bmt := by
        apply List.ext_getElem (by rw [ah, bh])
        intro n h1 h2
        have := hr n (by rw [← ah]; exact h1)
        rw [read_eq_getElem _ _ h1, read_eq_getElem _ _ h2] at this
        exact this
      subst this
      rfl

theorem words32_iff_read (st : State) : Words32 st ↔ ∀ j, j < N → st.read j < 2 ^ 32 := by
  unfold Words32
  constructor
  · intro h j hj
    have hj2 : j < st.mt.length := by rw [st.hlen]; exact hj
    rw [read_eq_getElem _ _ hj2]
    exact h _ (List.getElem_mem hj2)
  · intro h w hw
    obtain ⟨n, hn, rfl⟩ := List.getElem_of_mem hw
    have := h n (by rw [← st.hlen]; exact hn)
    rw [read_eq_getElem _ _ hn] at this
    exact this

/-! ## Word arithmetic -/

theorem and_mask32 (x : Nat) : x &&& 0xffffffff = x % 2 ^ 32 :=
  Nat.and_pow_two_sub_one_eq_mod x 32

theorem ulong_mod_32 (x : Nat) : x % ULONG_SIZE % 2 ^ 32 = x % 2 ^ 32 :=
  Nat.mod_mod_of_dvd x (by unfold ULONG_SIZE; exact Nat.pow_dvd_pow 2 (by decide))

/-! ## Scalar seeding -/

theorem init_genrand_loop_inv (s : Nat) : ∀ (fuel : Nat) (st : State),
    1 ≤ st.mti → st.mti ≤ N → N ≤ st.mti + fuel →
    (∀ j, j < st.mti → st.read j = seedWord s j) →
    (init_genrand_loop fuel st).mti = N ∧
      ∀ j, j < N → (init_genrand_loop fuel st).read j = seedWord s j := by
  intro fuel
  induction fuel with
  | zero =>
    intro st h1 h2 h3 h4
    have : st.mti = N := by omega
    simp only [init_genrand_loop]
    exact ⟨this, fun j hj => h4 j (by omega)⟩
  | succ fuel ih =>
    intro st h1 h2 h3 h4
    simp only [init_genrand_loop]
    by_cases hlt : st.mti < N
    · rw [if_pos hlt]
      apply ih
      · simp
      · simp; omega
      · simp; omega
      · intro j hj
        simp only [mti_setMti, mti_write] at hj
        simp only [read_setMti, mti_write]
        by_cases hj2 : j = st.mti
        · subst hj2
          rw [read_write_same _ _ _ hlt, read_write_same _ _ _ hlt, and_mask32, ulong_mod_32,
            Nat.add_mod, ulong_mod_32, ← Nat.add_mod, h4 (st.mti - 1) (by omega)]
          obtain ⟨m, hm⟩ : ∃ m, st.mti = m + 1 := ⟨st.mti - 1, by omega⟩
          rw [hm]
          simp [seedWord]
        · rw [read_write_ne _ _ _ _ (Ne.symm hj2), read_write_ne _ _ _ _ (Ne.symm hj2)]
          exact h4 j (by omega)
    · rw [if_neg hlt]
      have : st.mti = N := by omega
      exact ⟨this, fun j hj => h4 j (by omega)⟩

theorem init_genrand_mti (s : Nat) (st : State) : (init_genrand s st).mti = N := by
  unfold init_genrand
  refine (init_genrand_loop_inv s N _ ?_ ?_ ?_ ?_).1
  · simp
  · simp [N]
  · simp
  · intro j hj
    simp only [mti_setMti] at hj
    have : j = 0 := by omega
    subst this
    rw [read_setMti, read_write_same _ _ _ (by decide), and_mask32]
    rfl

theorem init_genrand_read (s : Nat) (st : State) (j : Nat) (hj : j < N) :
    (init_genrand s st).read j = seedWord s j := by
  unfold init_genrand
  refine (init_genrand_loop_inv s N _ ?_ ?_ ?_ ?_).2 j hj
  · simp
  · simp [N]
  · simp
  · intro j hj
    simp only [mti_setMti] at hj
    have : j = 0 := by omega
    subst this
    rw [read_setMti, read_write_same _ _ _ (by decide), and_mask32]
    rfl

/-- The state left by `init_genrand` does not depend on the state before the call. -/
theorem init_genrand_indep (s : Nat) (st1 st2 : State) :
    init_genrand s st1 = init_genrand s st2 := by
  apply State.ext_read
  · rw [init_genrand_mti, init_genrand_mti]
  · intro j hj
    rw [init_genrand_read _ _ _ hj, init_genrand_read _ _ _ hj]

/-! ## Tempering -/

theorem shiftRight_lt (x k n : Nat) (h : x < 2 ^ n) : x >>> k < 2 ^ n := by
  rw [Nat.shiftRight_eq_div_pow]
  exact lt_of_le_of_lt (Nat.div_le_self _ _) h

theorem ulong_and_low (x m : Nat) (hm : m < 2 ^ 32) : x % ULONG_SIZE &&& m = x % 2 ^ 32 &&& m := by
  apply Nat.eq_of_testBit_eq
  intro i
  simp only [Nat.testBit_and, Nat.testBit_mod_two_pow, ULONG_SIZE]
  by_cases hi : i < 32
  · have : i < 64 := by omega
    simp [hi, this]
  · have : m.testBit i = false :=
      Nat.testBit_lt_two_pow (lt_of_lt_of_le hm (Nat.pow_le_pow_right (by decide) (by omega)))
    simp [this]

theorem temper32_lt (y : Nat) : temper32 y < 2 ^ 32 := by
  unfold temper32
  exact Nat.mod_lt _ (by decide)

/-- On a word below `2^32` the tempering of the code, computed on an `unsigned long`, is the
tempering modulo `2^32`. -/
theorem temper_eq_temper32 (y : Nat) (h : y < 2 ^ 32) : temper y = temper32 y := by
  have h1 : y ^^^ (y >>> 11) < 2 ^ 32 := Nat.xor_lt_two_pow h (shiftRight_lt _ _ _ h)
  have e1 : (y ^^^ (y >>> 11)) % 2 ^ 32 = y ^^^ (y >>> 11) := Nat.mod_eq_of_lt h1
  generalize hy1 : y ^^^ (y >>> 11) = y1 at h1 e1
  have h2 : y1 ^^^ ((y1 <<< 7) % 2 ^ 32 &&& 0x9d2c5680) < 2 ^ 32 :=
    Nat.xor_lt_two_pow h1 (Nat.and_lt_two_pow _ (by decide))
  have e2 := Nat.mod_eq_of_lt h2
  generalize hy2 : y1 ^^^ ((y1 <<< 7) % 2 ^ 32 &&& 0x9d2c5680) = y2 at h2 e2
  have h3 : y2 ^^^ ((y2 <<< 15) % 2 ^ 32 &&& 0xefc60000) < 2 ^ 32 :=
    Nat.xor_lt_two_pow h2 (Nat.and_lt_two_pow _ (by decide))
  have e3 := Nat.mod_eq_of_lt h3
  generalize hy3 : y2 ^^^ ((y2 <<< 15) % 2 ^ 32 &&& 0xefc60000) = y3 at h3 e3
  have h4 : y3 ^^^ (y3 >>> 18) < 2 ^ 32 := Nat.xor_lt_two_pow h3 (shiftRight_lt _ _ _ h3)
  have e4 := Nat.mod_eq_of_lt h4
  unfold temper temper32
  simp only [hy1, e1, ulong_and_low _ _ (show 0x9d2c5680 < 2 ^ 32 by decide), hy2, e2,
    ulong_and_low _ _ (show 0xefc60000 < 2 ^ 32 by decide), hy3, e3, e4]

theorem temper_lt (y : Nat) (h : y < 2 ^ 32) : temper y < 2 ^ 32 := by
  rw [temper_eq_temper32 y h]
  exact temper32_lt y

/-! ## Drawing without a twist -/

theorem genrand_int32_of_lt (st : State) (h : st.mti < N) :
    genrand_int32 st = (temper (st.read st.mti), st.setMti (st.mti + 1)) := by
  unfold genrand_int32
  rw [if_neg (by omega)]

theorem words32_initial (k : Nat) : Words32 (initial.setMti k) := by
  intro w hw
  have hw2 : w ∈ List.replicate 624 0 := hw
  rw [List.eq_of_mem_replicate hw2]
  decide

/-! ## The twist -/

theorem mag01_and_one (y : Nat) : mag01 (y &&& 1) = if y % 2 = 1 then 0x9908b0df else 0 := by
  rw [Nat.and_one_is_mod]
  unfold mag01 MATRIX_A
  rcases Nat.mod_two_eq_zero_or_one y with h | h <;> simp [h]

theorem twist_step_eq_spec (st : State) (kk nxt src : Nat)
    (hn : nxt = (kk + 1) % 624) (hs : src = (kk + 397) % 624) :
    twist_step st kk nxt src = spec_twist_step st kk := by
  unfold twist_step spec_twist_step
  simp only [mag01_and_one, hn, hs, UPPER_MASK, LOWER_MASK]

theorem twist_loop1_eq : ∀ (fuel kk : Nat) (st : State), kk ≤ N - M → N - M ≤ kk + fuel →
    twist_loop1 fuel kk st = (N - M, (List.range' kk (N - M - kk)).foldl spec_twist_step st) := by
  intro fuel
  induction fuel with
  | zero =>
    intro kk st h1 h2
    have : kk = N - M := by omega
    subst this
    simp [twist_loop1]
  | succ fuel ih =>
    intro kk st h1 h2
    simp only [twist_loop1]
    by_cases hlt : kk < N - M
    · rw [if_pos hlt, ih _ _ (by omega) (by omega)]
      have e : N - M - kk = (N - M - (kk + 1)) + 1 := by omega
      rw [e, List.range'_succ, List.foldl_cons, twist_step_eq_spec]
      · simp only [N, M] at hlt
        omega
      · simp only [N, M] at hlt ⊢
        omega
    · rw [if_neg hlt]
      have : kk = N - M := by omega
      subst this
      simp

theorem twist_loop2_eq : ∀ (fuel kk : Nat) (st : State), N - M ≤ kk → kk ≤ N - 1 →
    N - 1 ≤ kk + fuel →
    twist_loop2 fuel kk st = (N - 1, (List.range' kk (N - 1 - kk)).foldl spec_twist_step st) := by
  intro fuel
  induction fuel with
  | zero =>
    intro kk st h0 h1 h2
    have : kk = N - 1 := by omega
    subst this
    simp [twist_loop2]
  | succ fuel ih =>
    intro kk st h0 h1 h2
    simp only [twist_loop2]
    by_cases hlt : kk < N - 1
    · rw [if_pos hlt, ih _ _ (by omega) (by omega) (by omega)]
      have e : N - 1 - kk = (N - 1 - (kk + 1)) + 1 := by omega
      rw [e, List.range'_succ, List.foldl_cons, twist_step_eq_spec]
      · simp only [N, M] at hlt h0
        omega
      · simp only [N, M] at hlt h0 ⊢
        omega
    · rw [if_neg hlt]
      have : kk = N - 1 := by omega
      subst this
      simp

theorem range_624_split :
    List.range 624 = List.range' 0 227 ++ (List.range' 227 396 ++ [623]) := by
  rw [List.range_eq_range', show [623] = List.range' 623 1 from rfl,
    List.range'_append 227 396 1 1, List.range'_append 0 227 397 1]

/-- The three loops of the code are the single pass of the specification, run on the state
that the default seeding leaves when the generator was never seeded. -/
theorem generate_eq_spec (st : State) :
    generate st =
      (spec_twist (if st.mti = N + 1 then init_genrand 5489 st else st)).setMti 0 := by
  unfold generate spec_twist
  simp only
  generalize (if st.mti = N + 1 then init_genrand 5489 st else st) = sa
  rw [twist_loop1_eq N 0 sa (by decide) (by decide)]
  simp only
  rw [twist_loop2_eq N (N - M) _ (by decide) (by decide) (by decide)]
  simp only
  rw [range_624_split, List.foldl_append, List.foldl_append,
    twist_step_eq_spec _ (N - 1) 0 (M - 1) (by decide) (by decide)]
  rfl

theorem words32_write (st : State) (i v : Nat) (hw : Words32 st) (hv : v < 2 ^ 32) :
    Words32 (st.write i v) := by
  rw [words32_iff_read] at hw ⊢
  intro j hj
  rw [read_write]
  split
  · exact hv
  · exact hw j hj

theorem words32_setMti (st : State) (k : Nat) (hw : Words32 st) : Words32 (st.setMti k) := hw

theorem words32_spec_twist_step (st : State) (k : Nat) (hw : Words32 st) :
    Words32 (spec_twist_step st k) := by
  unfold spec_twist_step
  apply words32_write _ _ _ hw
  have hr := (words32_iff_read st).1 hw
  have hy : (st.read k &&& 0x80000000) ||| (st.read ((k + 1) % 624) &&& 0x7fffffff) < 2 ^ 32 :=
    Nat.or_lt_two_pow (Nat.and_lt_two_pow _ (by decide)) (Nat.and_lt_two_pow _ (by decide))
  refine Nat.xor_lt_two_pow (Nat.xor_lt_two_pow (hr _ (Nat.mod_lt _ (by decide)))
    (shiftRight_lt _ _ _ hy)) ?_
  split <;> decide

theorem words32_foldl_spec (l : List Nat) : ∀ (st : State), Words32 st →
    Words32 (l.foldl spec_twist_step st) := by
  induction l with
  | nil => intro st hw; exact hw
  | cons k l ih => intro st hw; exact ih _ (words32_spec_twist_step st k hw)

theorem words32_spec_twist (st : State) (hw : Words32 st) : Words32 (spec_twist st) :=
  words32_foldl_spec _ st hw

theorem seedWord_lt (s j : Nat) : seedWord s j < 2 ^ 32 := by
  cases j <;> exact Nat.mod_lt _ (by decide)

theorem words32_init_genrand (s : Nat) (st : State) : Words32 (init_genrand s st) := by
  rw [words32_iff_read]
  intro j hj
  rw [init_genrand_read _ _ _ hj]
  exact seedWord_lt s j

theorem words32_generate (st : State) (hw : Words32 st) : Words32 (generate st) := by
  rw [generate_eq_spec]
  apply words32_setMti
  apply words32_spec_twist
  split
  · exact words32_init_genrand _ _
  · exact hw

/-! ## Array seeding -/

theorem xor_mod_two_pow (a b n : Nat) : (a ^^^ b) % 2 ^ n = (a % 2 ^ n) ^^^ (b % 2 ^ n) := by
  apply Nat.eq_of_testBit_eq
  intro i
  simp only [Nat.testBit_xor, Nat.testBit_mod_two_pow]
  by_cases hi : i < n <;> simp [hi]

theorem xor_ulong_mod_32 (a p : Nat) : (a ^^^ (p % ULONG_SIZE)) % 2 ^ 32 = (a ^^^ p) % 2 ^ 32 := by
  rw [xor_mod_two_pow, ulong_mod_32, ← xor_mod_two_pow]

theorem write_write (st : State) (i v v2 : Nat) : (st.write i v).write i v2 = st.write i v2 := by
  apply State.ext_read
  · rfl
  · intro j _
    simp only [read_write]
    by_cases h : i = j ∧ i < N
    · rw [if_pos h, if_pos h]
    · rw [if_neg h, if_neg h, if_neg h]

theorem mix1_word (a w kj j : Nat) :
    (((a ^^^ ((w ^^^ (w >>> 30)) * 1664525 % ULONG_SIZE)) + kj) % ULONG_SIZE + j) % ULONG_SIZE
        &&& 0xffffffff =
      ((a ^^^ ((w ^^^ (w >>> 30)) * 1664525)) + kj + j) % 2 ^ 32 := by
  rw [and_mask32, ulong_mod_32, Nat.add_mod, ulong_mod_32, Nat.add_mod _ kj,
    xor_ulong_mod_32, ← Nat.add_mod _ kj, ← Nat.add_mod]

theorem mix2_word (a w i : Nat) (hi : i < N) :
    ((a ^^^ ((w ^^^ (w >>> 30)) * 1566083941 % ULONG_SIZE)) + ULONG_SIZE - i) % ULONG_SIZE
        &&& 0xffffffff =
      ((((a ^^^ ((w ^^^ (w >>> 30)) * 1566083941) : Nat) : Int) - (i : Int)) % 2 ^ 32).toNat := by
  have hx := xor_ulong_mod_32 a ((w ^^^ (w >>> 30)) * 1566083941)
  rw [and_mask32]
  generalize a ^^^ ((w ^^^ (w >>> 30)) * 1566083941 % ULONG_SIZE) = x2 at hx ⊢
  generalize a ^^^ ((w ^^^ (w >>> 30)) * 1566083941) = x at hx ⊢
  unfold ULONG_SIZE
  unfold N at hi
  norm_num at hx ⊢
  omega

theorem mti_wrap_i (i : Nat) (st : State) : (wrap_i i st).2.mti = st.mti := by
  unfold wrap_i
  split <;> rfl

theorem wrap_i_eq_spec (i : Nat) (st : State) (h : i ≤ N) : wrap_i i st = spec_wrap i st := by
  unfold wrap_i spec_wrap
  by_cases hi : i = 624
  · subst hi
    rw [if_pos (by decide), if_pos rfl]
    rfl
  · rw [if_neg (by unfold N at h ⊢; omega), if_neg hi]

theorem spec_wrap_bounds (i : Nat) (st : State) (h1 : 1 ≤ i) (h : i ≤ N) :
    1 ≤ (spec_wrap i st).1 ∧ (spec_wrap i st).1 < N := by
  unfold spec_wrap
  by_cases hi : i = 624
  · rw [if_pos hi]
    constructor
    · exact Nat.le_refl 1
    · show 1 < N
      decide
  · rw [if_neg hi]
    unfold N at h ⊢
    exact ⟨h1, by simp only; omega⟩

theorem init_by_array_loop1_eq (key : List Nat) : ∀ (k i j : Nat) (st : State),
    1 ≤ i → i < N → j < key.length →
    init_by_array_loop1 key key.length k i j st = some (spec_mix1 key k i j st) := by
  intro k
  induction k with
  | zero => intro i j st _ _ _; rfl
  | succ k ih =>
    intro i j st h1 h2 hj
    have hb := spec_wrap_bounds (i + 1)
    simp only [init_by_array_loop1, spec_mix1]
    rw [List.getElem?_eq_getElem hj]
    simp only
    rw [read_write_same _ _ _ h2, write_write, wrap_i_eq_spec _ _ (by omega)]
    rw [mix1_word, List.getD_eq_getElem _ _ hj]
    have hj2 : (if ((j + 1 : Nat) : Int) ≥ (key.length : Int) then 0 else j + 1) =
        (if j + 1 = key.length then 0 else j + 1) := by
      by_cases e : j + 1 = key.length
      · rw [if_pos e, if_pos (by omega)]
      · rw [if_neg e, if_neg (by omega)]
    rw [hj2]
    apply ih
    · exact (hb _ (by omega) (by omega)).1
    · exact (hb _ (by omega) (by omega)).2
    · split <;> omega

theorem init_by_array_loop2_eq : ∀ (k i : Nat) (st : State), 1 ≤ i → i < N →
    init_by_array_loop2 k i st = spec_mix2 k i st := by
  intro k
  induction k with
  | zero => intro i st _ _; rfl
  | succ k ih =>
    intro i st h1 h2
    have hb := spec_wrap_bounds (i + 1)
    simp only [init_by_array_loop2, spec_mix2]
    rw [read_write_same _ _ _ h2, write_write, wrap_i_eq_spec _ _ (by omega)]
    rw [mix2_word _ _ _ h2]
    apply ih
    · exact (hb _ (by omega) (by omega)).1
    · exact (hb _ (by omega) (by omega)).2

theorem mti_spec_wrap (i : Nat) (st : State) : (spec_wrap i st).2.mti = st.mti := by
  unfold spec_wrap
  split <;> rfl

theorem mti_spec_mix1 (key : List Nat) : ∀ (k i j : Nat) (st : State),
    (spec_mix1 key k i j st).2.mti = st.mti := by
  intro k
  induction k with
  | zero => intro i j st; rfl
  | succ k ih =>
    intro i j st
    simp only [spec_mix1]
    rw [ih, mti_spec_wrap, mti_write]

theorem mti_spec_mix2 : ∀ (k i : Nat) (st : State), (spec_mix2 k i st).2.mti = st.mti := by
  intro k
  induction k with
  | zero => intro i st; rfl
  | succ k ih =>
    intro i st
    simp only [spec_mix2]
    rw [ih, mti_spec_wrap, mti_write]

theorem spec_mix1_bounds (key : List Nat) : ∀ (k i j : Nat) (st : State), 1 ≤ i → i < N →
    1 ≤ (spec_mix1 key k i j st).1 ∧ (spec_mix1 key k i j st).1 < N := by
  intro k
  induction k with
  | zero => intro i j st h1 h2; exact ⟨h1, h2⟩
  | succ k ih =>
    intro i j st h1 h2
    have hb := spec_wrap_bounds (i + 1)
    simp only [spec_mix1]
    exact ih _ _ _ (hb _ (by omega) (by omega)).1 (hb _ (by omega) (by omega)).2

theorem setMti_self (st : State) (k : Nat) (h : st.mti = k) : st.setMti k = st := by
  cases st
  simp only [State.setMti] at h ⊢
  subst h
  rfl

theorem spec_init_by_array_read_zero (key : List Nat) (st : State) :
    (spec_init_by_array key st).read 0 = 0x80000000 := by
  unfold spec_init_by_array
  simp only [read_setMti]
  exact read_write_same _ _ _ (by decide)

/-- Array seeding of the code is array seeding of the specification, for a key read in full. -/
theorem init_by_array_eq_spec (key : List Nat) (st : State) (hL : 1 ≤ key.length) :
    init_by_array key key.length st = some (spec_init_by_array key st) := by
  unfold init_by_array spec_init_by_array
  simp only
  have hk : (if (N : Int) > (key.length : Int) then (N : Int) else (key.length : Int)).toNat
      = max 624 key.length := by
    unfold N
    split <;> omega
  rw [hk, init_by_array_loop1_eq key _ 1 0 _ (Nat.le_refl 1) (by decide) (by omega)]
  simp only
  have hb := spec_mix1_bounds key (max 624 key.length) 1 0 (init_genrand 19650218 st)
    (Nat.le_refl 1) (by decide)
  rw [init_by_array_loop2_eq _ _ _ hb.1 hb.2, show N - 1 = 623 from rfl]
  rw [setMti_self _ 624]
  rw [mti_write]
  exact (mti_spec_mix2 _ _ _).trans ((mti_spec_mix1 _ _ _ _ _).trans (init_genrand_mti _ _))

/-! ## Blocks of draws -/

theorem generate_of_eq_N (st : State) (h : st.mti = N) :
    generate st = (spec_twist st).setMti 0 := by
  rw [generate_eq_spec, if_neg (by omega)]

theorem generate_default_seed (st : State) (h : st.mti = N + 1) :
    generate st = generate (init_genrand 5489 st) := by
  rw [generate_eq_spec, generate_eq_spec, if_pos h, if_neg (by rw [init_genrand_mti]; omega)]

theorem genrand_int32_of_ge (st : State) (h : N ≤ st.mti) :
    genrand_int32 st =
      (temper ((generate st).read (generate st).mti), (generate st).setMti ((generate st).mti + 1)) := by
  unfold genrand_int32
  rw [if_pos h]

theorem setMti_setMti (st : State) (a b : Nat) : (st.setMti a).setMti b = st.setMti b := rfl

theorem genrand_int32_of_eq_N (st : State) (h : st.mti = N) :
    genrand_int32 st = (temper ((spec_twist st).read 0), (spec_twist st).setMti 1) := by
  rw [genrand_int32_of_ge st (by omega), generate_of_eq_N st h]
  simp only [mti_setMti, read_setMti, setMti_setMti]

theorem draws_no_twist : ∀ (n : Nat) (st : State), st.mti + n ≤ N →
    draws n st =
      ((List.range' st.mti n).map (fun i => temper (st.read i)), st.setMti (st.mti + n)) := by
  intro n
  induction n with
  | zero =>
    intro st _
    simp only [draws, List.range'_zero, List.map_nil, Nat.add_zero]
    rw [setMti_self _ _ rfl]
  | succ n ih =>
    intro st h
    simp only [draws]
    rw [genrand_int32_of_lt st (by omega)]
    simp only
    rw [ih _ (by simp only [mti_setMti]; omega)]
    simp only [mti_setMti, read_setMti, setMti_setMti, List.range'_succ, List.map_cons]
    rw [Nat.add_assoc, Nat.add_comm 1 n]

/-- From a state with `mti = N`, `n + 1 <= N` draws twist once and then read the block. -/
theorem draws_block (n : Nat) (st : State) (hc : st.mti = N) (hn : n + 1 ≤ N) :
    draws (n + 1) st =
      ((List.range' 0 (n + 1)).map (fun i => temper ((spec_twist st).read i)),
        (spec_twist st).setMti (n + 1)) := by
  simp only [draws]
  rw [genrand_int32_of_eq_N st hc]
  simp only
  rw [draws_no_twist n _ (by simp only [mti_setMti]; omega)]
  simp only [mti_setMti, read_setMti, setMti_setMti, List.range'_succ, List.map_cons]
  rw [Nat.add_comm 1 n]

theorem read_foldl_spec_not_mem (l : List Nat) : ∀ (st : State) (i : Nat), i ∉ l →
    (l.foldl spec_twist_step st).read i = st.read i := by
  induction l with
  | nil => intro st i _; rfl
  | cons k l ih =>
    intro st i hi
    rw [List.foldl_cons, ih _ _ (fun h => hi (List.mem_cons_of_mem _ h))]
    unfold spec_twist_step
    exact read_write_ne _ _ _ _ (fun h => hi (by rw [h]; exact List.mem_cons_self _ _))

theorem range_624_at (k : Nat) (hk : k < 624) :
    List.range 624 = List.range' 0 k ++ (k :: List.range' (k + 1) (623 - k)) := by
  rw [List.range_eq_range', ← List.range'_succ]
  have := List.range'_append 0 k (623 - k + 1) 1
  rw [Nat.zero_add, Nat.one_mul] at this
  rw [this]
  congr 1
  omega

/-- The word that the twist leaves at index `k`, from the state reached just before round `k`. -/
theorem spec_twist_read (st : State) (k : Nat) (hk : k < 624) :
    (spec_twist st).read k =
      (spec_twist_step ((List.range' 0 k).foldl spec_twist_step st) k).read k := by
  unfold spec_twist
  rw [range_624_at k hk, List.foldl_append, List.foldl_cons, read_foldl_spec_not_mem]
  intro h
  rw [List.mem_range'_1] at h
  omega

/-- The first `N - M` words of the twisted block, from the words before the twist. -/
theorem spec_twist_read_low (st : State) (k : Nat) (hk : k < 227) :
    (spec_twist st).read k =
      st.read (k + 397) ^^^
        (((st.read k &&& 0x80000000) ||| (st.read (k + 1) &&& 0x7fffffff)) >>> 1) ^^^
        (if ((st.read k &&& 0x80000000) ||| (st.read (k + 1) &&& 0x7fffffff)) % 2 = 1
          then 0x9908b0df else 0) := by
  rw [spec_twist_read st k (by omega)]
  have e1 : (k + 1) % 624 = k + 1 := Nat.mod_eq_of_lt (by omega)
  have e2 : (k + 397) % 624 = k + 397 := Nat.mod_eq_of_lt (by omega)
  have hnm : ∀ i, k ≤ i → i ∉ List.range' 0 k := by
    intro i hi h
    rw [List.mem_range'_1] at h
    omega
  have h0 := read_foldl_spec_not_mem _ st _ (hnm k (Nat.le_refl k))
  have h1 := read_foldl_spec_not_mem _ st _ (hnm (k + 1) (by omega))
  have h2 := read_foldl_spec_not_mem _ st _ (hnm (k + 397) (by omega))
  generalize List.foldl spec_twist_step st (List.range' 0 k) = st2 at h0 h1 h2 ⊢
  unfold spec_twist_step
  rw [read_write_same _ _ _ (by unfold N; omega), e1, e2, h0, h1, h2]

set_option maxRecDepth 100000 in
/-- The first five tempered words of the block twisted from the words of seed `5489`. -/
theorem first_block_5489 :
    [temper (seedWord 5489 397 ^^^
          (((seedWord 5489 0 &&& 0x80000000) ||| (seedWord 5489 1 &&& 0x7fffffff)) >>> 1) ^^^
          (if ((seedWord 5489 0 &&& 0x80000000) ||| (seedWord 5489 1 &&& 0x7fffffff)) % 2 = 1
            then 0x9908b0df else 0)),
      temper (seedWord 5489 398 ^^^
          (((seedWord 5489 1 &&& 0x80000000) ||| (seedWord 5489 2 &&& 0x7fffffff)) >>> 1) ^^^
          (if ((seedWord 5489 1 &&& 0x80000000) ||| (seedWord 5489 2 &&& 0x7fffffff)) % 2 = 1
            then 0x9908b0df else 0)),
      temper (seedWord 5489 399 ^^^
          (((seedWord 5489 2 &&& 0x80000000) ||| (seedWord 5489 3 &&& 0x7fffffff)) >>> 1) ^^^
          (if ((seedWord 5489 2 &&& 0x80000000) ||| (seedWord 5489 3 &&& 0x7fffffff)) % 2 = 1
            then 0x9908b0df else 0)),
      temper (seedWord 5489 400 ^^^
          (((seedWord 5489 3 &&& 0x80000000) ||| (seedWord 5489 4 &&& 0x7fffffff)) >>> 1) ^^^
          (if ((seedWord 5489 3 &&& 0x80000000) ||| (seedWord 5489 4 &&& 0x7fffffff)) % 2 = 1
            then 0x9908b0df else 0)),
      temper (seedWord 5489 401 ^^^
          (((seedWord 5489 4 &&& 0x80000000) ||| (seedWord 5489 5 &&& 0x7fffffff)) >>> 1) ^^^
          (if ((seedWord 5489 4 &&& 0x80000000) ||| (seedWord 5489 5 &&& 0x7fffffff)) % 2 = 1
            then 0x9908b0df else 0))] =
      [3499211612, 581869302, 3890346734, 3586334585, 545404204] := by
  decide

/-! ## The state invariant -/

theorem inv_genrand_int32 (st : State) (hw : Words32 st) : Inv (genrand_int32 st).2 := by
  by_cases h : st.mti < N
  · rw [genrand_int32_of_lt st h]
    exact ⟨h, hw⟩
  · have hm : (generate st).mti = 0 := by rw [generate_eq_spec, mti_setMti]
    have hg := words32_generate st hw
    rw [genrand_int32_of_ge st (by omega), hm]
    generalize generate st = g at hg
    exact ⟨by simp only [mti_setMti]; decide, hg⟩

theorem genrand_int32_lt (st : State) (hw : Words32 st) : (genrand_int32 st).1 < 2 ^ 32 := by
  by_cases h : st.mti < N
  · rw [genrand_int32_of_lt st h]
    exact temper_lt _ ((words32_iff_read st).1 hw _ h)
  · rw [genrand_int32_of_ge st (by omega)]
    have hm : (generate st).mti = 0 := by rw [generate_eq_spec, mti_setMti]
    have hg := words32_generate st hw
    rw [hm]
    generalize generate st = g at hg
    exact temper_lt _ ((words32_iff_read _).1 hg 0 (by decide))

theorem words32_spec_wrap (i : Nat) (st : State) (hw : Words32 st) :
    Words32 (spec_wrap i st).2 := by
  unfold spec_wrap
  split
  · exact words32_write _ _ _ hw ((words32_iff_read st).1 hw 623 (by decide))
  · exact hw

theorem words32_spec_mix1 (key : List Nat) : ∀ (k i j : Nat) (st : State), Words32 st →
    Words32 (spec_mix1 key k i j st).2 := by
  intro k
  induction k with
  | zero => intro i j st hw; exact hw
  | succ k ih =>
    intro i j st hw
    simp only [spec_mix1]
    exact ih _ _ _ (words32_spec_wrap _ _ (words32_write _ _ _ hw (Nat.mod_lt _ (by decide))))

theorem words32_spec_mix2 : ∀ (k i : Nat) (st : State), Words32 st →
    Words32 (spec_mix2 k i st).2 := by
  intro k
  induction k with
  | zero => intro i st hw; exact hw
  | succ k ih =>
    intro i st hw
    simp only [spec_mix2]
    refine ih _ _ (words32_spec_wrap _ _ (words32_write _ _ _ hw ?_))
    generalize ((st.read i ^^^ ((st.read (i - 1) ^^^ (st.read (i - 1) >>> 30)) * 1566083941)
      : Nat) : Int) - (i : Int) = z
    omega

theorem inv_spec_init_by_array (key : List Nat) (st : State) :
    Inv (spec_init_by_array key st) := by
  unfold spec_init_by_array
  refine ⟨Nat.le_refl _, ?_⟩
  apply words32_setMti
  apply words32_write _ _ _ _ (by decide)
  apply words32_spec_mix2
  apply words32_spec_mix1
  exact words32_init_genrand _ _

/-! ## Array seeding with `key_length = 0` -/

theorem init_by_array_loop1_zero_len (v : Nat) (rest : List Nat) : ∀ (k i : Nat) (st : State),
    init_by_array_loop1 (v :: rest) 0 k i 0 st = init_by_array_loop1 [v] 1 k i 0 st := by
  intro k
  induction k with
  | zero => intro i st; rfl
  | succ k ih =>
    intro i st
    simp only [init_by_array_loop1, List.getElem?_cons_zero]
    rw [if_pos (by omega), if_pos (by omega)]
    exact ih _ _

theorem init_by_array_zero_len (v : Nat) (rest : List Nat) (st : State) :
    init_by_array (v :: rest) 0 st = init_by_array [v] 1 st := by
  unfold init_by_array
  simp only
  rw [if_pos (by unfold N; omega), if_pos (by unfold N; omega), init_by_array_loop1_zero_len]

theorem init_by_array_singleton (v : Nat) (st : State) :
    init_by_array [v] 1 st = some (spec_init_by_array [v] st) :=
  init_by_array_eq_spec [v] st (Nat.le_refl 1)

theorem init_by_array_nil (L : Int) (st : State) : init_by_array [] L st = none := by
  unfold init_by_array
  simp only
  have hk : ∃ m, (if (N : Int) > L then (N : Int) else L).toNat = m + 1 := by
    refine ⟨(if (N : Int) > L then (N : Int) else L).toNat - 1, ?_⟩
    unfold N
    split <;> omega
  obtain ⟨m, hm⟩ := hk
  rw [hm]
  simp only [init_by_array_loop1, List.getElem?_nil]

/-! ## Tempering is linear over XOR and invertible -/

theorem lin_shr (k z z2 y y2 : Nat) :
    ((z ^^^ z2) ^^^ ((y ^^^ y2) >>> k)) % 2 ^ 32 =
      (z ^^^ (y >>> k)) % 2 ^ 32 ^^^ (z2 ^^^ (y2 >>> k)) % 2 ^ 32 := by
  apply Nat.eq_of_testBit_eq
  intro i
  simp only [Nat.testBit_mod_two_pow, Nat.testBit_xor, Nat.testBit_shiftRight]
  cases decide (i < 32) <;> cases z.testBit i <;> cases z2.testBit i <;>
    cases y.testBit (k + i) <;> cases y2.testBit (k + i) <;> rfl

theorem lin_shl (k m z z2 y y2 : Nat) :
    ((z ^^^ z2) ^^^ (((y ^^^ y2) <<< k) % 2 ^ 32 &&& m)) % 2 ^ 32 =
      (z ^^^ ((y <<< k) % 2 ^ 32 &&& m)) % 2 ^ 32 ^^^
        (z2 ^^^ ((y2 <<< k) % 2 ^ 32 &&& m)) % 2 ^ 32 := by
  apply Nat.eq_of_testBit_eq
  intro i
  simp only [Nat.testBit_mod_two_pow, Nat.testBit_xor, Nat.testBit_shiftLeft, Nat.testBit_and]
  cases decide (i < 32) <;> cases z.testBit i <;> cases z2.testBit i <;> cases decide (i ≥ k) <;>
    cases y.testBit (i - k) <;> cases y2.testBit (i - k) <;> cases m.testBit i <;> rfl

theorem temper32_xor (a b : Nat) : temper32 (a ^^^ b) = temper32 a ^^^ temper32 b := by
  unfold temper32
  simp only
  rw [lin_shr 11 a b a b, lin_shl, lin_shl, lin_shr]

theorem untemper32_xor (a b : Nat) : untemper32 (a ^^^ b) = untemper32 a ^^^ untemper32 b := by
  unfold untemper32
  simp only
  rw [lin_shr 18 a b a b, lin_shl, lin_shl, lin_shl, lin_shl, lin_shl, lin_shl, lin_shl, lin_shl,
    lin_shr, lin_shr, lin_shr]

theorem untemper32_lt (z : Nat) : untemper32 z < 2 ^ 32 := by
  unfold untemper32
  exact Nat.mod_lt _ (by decide)

/-- On the 32 one-bit words the two transforms undo each other. -/
theorem temper32_basis : ∀ i : Fin 32,
    untemper32 (temper32 (2 ^ i.val)) = 2 ^ i.val ∧
    temper32 (untemper32 (2 ^ i.val)) = 2 ^ i.val := by
  decide

/-- A word below `2^(n+1)` is its part below `2^n` XOR its bit `n`. -/
theorem split_top_bit (n x : Nat) (hx : x < 2 ^ (n + 1)) :
    x = (x % 2 ^ n) ^^^ (if x.testBit n then 2 ^ n else 0) := by
  apply Nat.eq_of_testBit_eq
  intro j
  rw [Nat.testBit_xor, Nat.testBit_mod_two_pow]
  by_cases hj : j < n
  · have : (if x.testBit n then 2 ^ n else 0).testBit j = false := by
      split
      · rw [Nat.testBit_two_pow]
        simp only [decide_eq_false_iff_not]
        omega
      · exact Nat.zero_testBit j
    simp [hj, this]
  · by_cases hjn : j = n
    · subst hjn
      cases hb : x.testBit j <;> simp [hb]
    · have hlt : x < 2 ^ j :=
        lt_of_lt_of_le hx (Nat.pow_le_pow_right (by decide) (by omega))
      have : (if x.testBit n then 2 ^ n else 0).testBit j = false := by
        split
        · rw [Nat.testBit_two_pow]
          simp only [decide_eq_false_iff_not]
          omega
        · exact Nat.zero_testBit j
      rw [Nat.testBit_lt_two_pow hlt, this]
      simp [hj]

/-- A map that is linear over XOR and fixes the 32 one-bit words fixes every 32-bit word. -/
theorem xor_linear_fixes (f : Nat → Nat) (hlin : ∀ a b, f (a ^^^ b) = f a ^^^ f b)
    (hb : ∀ i : Fin 32, f (2 ^ i.val) = 2 ^ i.val) :
    ∀ n, n ≤ 32 → ∀ x, x < 2 ^ n → f x = x := by
  have h0 : f 0 = 0 := by
    have := hlin 0 0
    rw [Nat.xor_self] at this
    have h2 : f 0 ^^^ f 0 = 0 := Nat.xor_self _
    rw [h2] at this
    exact this
  intro n
  induction n with
  | zero =>
    intro _ x hx
    have : x = 0 := by simpa using hx
    rw [this, h0]
  | succ n ih =>
    intro hn x hx
    have hs := split_top_bit n x hx
    have hlow := ih (by omega) (x % 2 ^ n) (Nat.mod_lt _ (Nat.two_pow_pos n))
    have hbit : f (if x.testBit n then 2 ^ n else 0) = (if x.testBit n then 2 ^ n else 0) := by
      split
      · exact hb ⟨n, by omega⟩
      · exact h0
    calc f x = f ((x % 2 ^ n) ^^^ (if x.testBit n then 2 ^ n else 0)) := by rw [← hs]
      _ = (x % 2 ^ n) ^^^ (if x.testBit n then 2 ^ n else 0) := by rw [hlin, hlow, hbit]
      _ = x := hs.symm

theorem untemper32_temper32 (x : Nat) (hx : x < 2 ^ 32) : untemper32 (temper32 x) = x :=
  xor_linear_fixes (fun y => untemper32 (temper32 y))
    (fun a b => by simp only [temper32_xor, untemper32_xor])
    (fun i => (temper32_basis i).1) 32 (Nat.le_refl 32) x hx

theorem temper32_untemper32 (z : Nat) (hz : z < 2 ^ 32) : temper32 (untemper32 z) = z :=
  xor_linear_fixes (fun y => temper32 (untemper32 y))
    (fun a b => by simp only [temper32_xor, untemper32_xor])
    (fun i => (temper32_basis i).2) 32 (Nat.le_refl 32) z hz

/-- C1. For every seed `s` and every state before the call, `init_genrand s` leaves
`mt[0] = s mod 2^32`, every `mt[i]` with `1 <= i <= 623` equal to
`(1812433253 * (mt[i-1] XOR (mt[i-1] >> 30)) + i) mod 2^32`, and `mti = 624`. -/
theorem init_genrand_spec (s : Nat) (st : State) :
    (init_genrand s st).read 0 = s % 2 ^ 32 ∧
    (∀ i : Fin 623, (init_genrand s st).read (i.val + 1) =
      (1812433253 * ((init_genrand s st).read i.val ^^^ ((init_genrand s st).read i.val >>> 30))
        + (i.val + 1)) % 2 ^ 32) ∧
    (init_genrand s st).mti = 624 := by
  refine ⟨?_, ?_, init_genrand_mti s st⟩
  · rw [init_genrand_read _ _ _ (by decide)]
    rfl
  · intro i
    have hi := i.isLt
    rw [init_genrand_read _ _ _ (by unfold N; omega), init_genrand_read _ _ _ (by unfold N; omega)]
    rfl

/-- C2. In a state with `0 <= mti < 624` and all words below `2^32`, `genrand_int32` leaves
the 624 words unchanged, increases `mti` by exactly one and returns the tempering (with all
arithmetic modulo `2^32`) of `mt[mti]`. -/
theorem genrand_int32_no_twist (st : State) (hc : st.mti < 624) (hw : Words32 st) :
    (genrand_int32 st).2.mt = st.mt ∧ (genrand_int32 st).2.mti = st.mti + 1 ∧
    (genrand_int32 st).1 = temper32 (st.read st.mti) := by
  rw [genrand_int32_of_lt st hc]
  refine ⟨rfl, rfl, ?_⟩
  exact temper_eq_temper32 _ ((words32_iff_read st).1 hw _ hc)

theorem genrand_int32_no_twist_witness :
    (initial.setMti 3).mti < 624 ∧ Words32 (initial.setMti 3) ∧
    ((genrand_int32 (initial.setMti 3)).2.mt = (initial.setMti 3).mt ∧
      (genrand_int32 (initial.setMti 3)).2.mti = (initial.setMti 3).mti + 1 ∧
      (genrand_int32 (initial.setMti 3)).1 = temper32 ((initial.setMti 3).read (initial.setMti 3).mti)) :=
  ⟨by decide, words32_initial 3,
    genrand_int32_no_twist (initial.setMti 3) (by decide) (words32_initial 3)⟩

/-- C3. In a state with `mti = 624` and all words below `2^32`, the words left by one call of
`genrand_int32` (the three loops of the code) are those of the single in-place pass of the
specification over `k = 0, ..., 623` with indices modulo `624`; the call leaves `mti = 1` and
returns the tempering of the new `mt[0]`. -/
theorem genrand_int32_twist_refines_spec (st : State) (hc : st.mti = 624) (hw : Words32 st) :
    (genrand_int32 st).2.mt = (spec_twist st).mt ∧ (genrand_int32 st).2.mti = 1 ∧
    (genrand_int32 st).1 = temper32 ((spec_twist st).read 0) := by
  have hg : generate st = (spec_twist st).setMti 0 := by
    rw [generate_eq_spec, if_neg (by rw [hc]; decide)]
  unfold genrand_int32
  rw [if_pos (by rw [hc]; exact Nat.le_refl 624), hg]
  simp only [mt_setMti, mti_setMti, read_setMti, true_and]
  exact temper_eq_temper32 _
    ((words32_iff_read _).1 (words32_spec_twist st hw) 0 (by decide))

theorem genrand_int32_twist_refines_spec_witness :
    (initial.setMti 624).mti = 624 ∧ Words32 (initial.setMti 624) ∧
    ((genrand_int32 (initial.setMti 624)).2.mt = (spec_twist (initial.setMti 624)).mt ∧
      (genrand_int32 (initial.setMti 624)).2.mti = 1 ∧
      (genrand_int32 (initial.setMti 624)).1 =
        temper32 ((spec_twist (initial.setMti 624)).read 0)) :=
  ⟨rfl, words32_initial 624,
    genrand_int32_twist_refines_spec (initial.setMti 624) rfl (words32_initial 624)⟩

/-- C4. For every key of length `L >= 1`, `init_by_array(key, L)` completes and leaves the
state of the reference procedure of the specification: scalar seeding with `19650218`,
`max(624, L)` rounds of the first mixing pass, `623` rounds of the second, and finally
`mt[0] = 0x80000000` and `mti = 624`. -/
theorem init_by_array_refines_spec (key : List Nat) (st : State) (hL : 1 ≤ key.length) :
    init_by_array key key.length st = some (spec_init_by_array key st) ∧
    (spec_init_by_array key st).read 0 = 0x80000000 ∧ (spec_init_by_array key st).mti = 624 := by
  exact ⟨init_by_array_eq_spec key st hL, spec_init_by_array_read_zero key st, rfl⟩

theorem init_by_array_refines_spec_witness :
    1 ≤ [0x123, 0x234, 0x345, 0x456].length ∧
    (init_by_array [0x123, 0x234, 0x345, 0x456] ([0x123, 0x234, 0x345, 0x456] : List Nat).length
        initial = some (spec_init_by_array [0x123, 0x234, 0x345, 0x456] initial) ∧
      (spec_init_by_array [0x123, 0x234, 0x345, 0x456] initial).read 0 = 0x80000000 ∧
      (spec_init_by_array [0x123, 0x234, 0x345, 0x456] initial).mti = 624) :=
  ⟨by decide, init_by_array_refines_spec [0x123, 0x234, 0x345, 0x456] initial (by decide)⟩

/-- C5. In the never-seeded state (`mti = 625`, any words), `genrand_int32` returns the same
value and leaves the same state as `init_genrand(5489)` followed by `genrand_int32`, and so
does every sequence of draws that follows. -/
theorem default_seed_is_5489 (st : State) (h : st.mti = 625) :
    genrand_int32 st = genrand_int32 (init_genrand 5489 st) ∧
    ∀ k : Nat, draws (k + 1) st = draws (k + 1) (init_genrand 5489 st) := by
  have h1 : genrand_int32 st = genrand_int32 (init_genrand 5489 st) := by
    rw [genrand_int32_of_ge st (by rw [h]; unfold N; omega),
      genrand_int32_of_ge (init_genrand 5489 st) (by rw [init_genrand_mti]),
      generate_default_seed st h]
  refine ⟨h1, fun k => ?_⟩
  simp only [draws]
  rw [h1]

theorem default_seed_is_5489_witness :
    initial.mti = 625 ∧
    (genrand_int32 initial = genrand_int32 (init_genrand 5489 initial) ∧
      ∀ k : Nat, draws (k + 1) initial = draws (k + 1) (init_genrand 5489 initial)) :=
  ⟨rfl, default_seed_is_5489 initial rfl⟩

/-- C6. Re-seeding resets the stream: for every seed `s`, every `k` and any two states before
the call, `init_genrand(s)` followed by `k` draws gives the same `k` words and the same final
state; in particular after `init_genrand(s)` and `k` draws, re-seeding with `s` and drawing
`k` words repeats the sequence. -/
theorem reseed_resets_stream (s k : Nat) (st1 st2 : State) :
    draws k (init_genrand s st1) = draws k (init_genrand s st2) ∧
    draws k (init_genrand s (draws k (init_genrand s st1)).2) = draws k (init_genrand s st1) := by
  constructor
  · rw [init_genrand_indep s st1 st2]
  · rw [init_genrand_indep s _ st1]

/-- C7. Known-answer vector: after `init_genrand(5489)`, from any state, the first five calls
of `genrand_int32` return 3499211612, 581869302, 3890346734, 3586334585, 545404204 in that
order. -/
theorem known_answer_5489 (st : State) :
    (draws 5 (init_genrand 5489 st)).1 =
      [3499211612, 581869302, 3890346734, 3586334585, 545404204] := by
  rw [draws_block 4 _ (init_genrand_mti _ _) (by decide)]
  simp only [List.range'_succ, List.range'_zero, List.map_cons, List.map_nil, Nat.zero_add,
    Nat.reduceAdd]
  rw [spec_twist_read_low _ 0 (by decide), spec_twist_read_low _ 1 (by decide),
    spec_twist_read_low _ 2 (by decide), spec_twist_read_low _ 3 (by decide),
    spec_twist_read_low _ 4 (by decide)]
  simp only [Nat.zero_add, Nat.reduceAdd]
  repeat rw [init_genrand_read _ _ _ (by decide)]
  exact first_block_5489

/-- C8. State invariant: from any state with all words below `2^32` (the initial state is
one), after each public operation (`init_genrand`, `init_by_array` with a non-empty key,
`genrand_int32`, `genrand_int31`, `genrand_real1`, `genrand_real2`, `genrand_real3`,
`genrand_res53`) the cursor is at most `624` and all 624 words are below `2^32`. -/
theorem state_invariant (st : State) (hw : Words32 st) :
    (∀ s : Nat, Inv (init_genrand s st)) ∧
    (∀ (v : Nat) (rest : List Nat), ∃ st2,
      init_by_array (v :: rest) (v :: rest).length st = some st2 ∧ Inv st2) ∧
    Inv (genrand_int32 st).2 ∧ Inv (genrand_int31 st).2 ∧ Inv (genrand_real1 st).2 ∧
    Inv (genrand_real2 st).2 ∧ Inv (genrand_real3 st).2 ∧ Inv (genrand_res53 st).2 := by
  have h32 := inv_genrand_int32 st hw
  refine ⟨fun s => ⟨by rw [init_genrand_mti], words32_init_genrand s st⟩, ?_, h32, h32, h32,
    h32, h32, inv_genrand_int32 _ h32.2⟩
  intro v rest
  exact ⟨_, init_by_array_eq_spec (v :: rest) st (by simp), inv_spec_init_by_array _ _⟩

theorem state_invariant_witness :
    Words32 initial ∧
    ((∀ s : Nat, Inv (init_genrand s initial)) ∧
      (∀ (v : Nat) (rest : List Nat), ∃ st2,
        init_by_array (v :: rest) (v :: rest).length initial = some st2 ∧ Inv st2) ∧
      Inv (genrand_int32 initial).2 ∧ Inv (genrand_int31 initial).2 ∧
      Inv (genrand_real1 initial).2 ∧ Inv (genrand_real2 initial).2 ∧
      Inv (genrand_real3 initial).2 ∧ Inv (genrand_res53 initial).2) :=
  ⟨words32_initial 625, state_invariant initial (words32_initial 625)⟩

/-- C9. Range of the integer outputs: in a state whose words are all below `2^32`,
`genrand_int32` returns a value below `2^32`, and `genrand_int31` returns exactly that value
shifted right by one bit, a value in `[0, 2^31 - 1]`, with the same effect on the state. -/
theorem int_outputs_range (st : State) (hw : Words32 st) :
    (genrand_int32 st).1 < 2 ^ 32 ∧
    genrand_int31 st = ((((genrand_int32 st).1 >>> 1 : Nat) : Int), (genrand_int32 st).2) ∧
    0 ≤ (genrand_int31 st).1 ∧ (genrand_int31 st).1 < 2 ^ 31 := by
  have h := genrand_int32_lt st hw
  have h1 : (genrand_int32 st).1 >>> 1 < 2 ^ 31 := by
    rw [Nat.shiftRight_eq_div_pow]
    omega
  have e : genrand_int31 st = ((((genrand_int32 st).1 >>> 1 : Nat) : Int), (genrand_int32 st).2) := by
    unfold genrand_int31 toLong
    simp only
    rw [if_pos (by omega)]
  refine ⟨h, e, ?_, ?_⟩
  · rw [e]
    exact Int.natCast_nonneg _
  · rw [e]
    simp only
    omega

theorem int_outputs_range_witness :
    Words32 initial ∧
    ((genrand_int32 initial).1 < 2 ^ 32 ∧
      genrand_int31 initial =
        ((((genrand_int32 initial).1 >>> 1 : Nat) : Int), (genrand_int32 initial).2) ∧
      0 ≤ (genrand_int31 initial).1 ∧ (genrand_int31 initial).1 < 2 ^ 31) :=
  ⟨words32_initial 625, int_outputs_range initial (words32_initial 625)⟩

/-- C10, as the code has it. Array seeding with `key_length = 0` is not rejected: when
`init_key` holds at least one element the call completes, having read `init_key[0]` at every
round of the first pass, with the state it leaves for the one-element key `[init_key[0]]`,
ending with `mt[0] = 0x80000000` and `mti = 624`; when `init_key` holds no element the first
round reads outside the array. -/
theorem init_by_array_zero_length (v : Nat) (rest : List Nat) (st : State) :
    init_by_array (v :: rest) 0 st = init_by_array [v] 1 st ∧
    (∃ st2, init_by_array (v :: rest) 0 st = some st2 ∧ st2.read 0 = 0x80000000 ∧
      st2.mti = 624) ∧
    init_by_array [] 0 st = none := by
  refine ⟨init_by_array_zero_len v rest st, ⟨spec_init_by_array [v] st, ?_, ?_, rfl⟩,
    init_by_array_nil 0 st⟩
  · rw [init_by_array_zero_len, init_by_array_singleton]
  · exact spec_init_by_array_read_zero [v] st

/-- C12. Interval conventions of the 32-bit real outputs, over exact rational arithmetic:
with `w` the raw word drawn, `genrand_real1 = w/(2^32-1)` lies in `[0,1]`, is `1` exactly
when `w = 2^32-1` and `0` exactly when `w = 0`; `genrand_real2 = w/2^32` lies in `[0,1)`;
`genrand_real3 = (w + 1/2)/2^32` lies strictly inside `(0,1)`. -/
theorem real_outputs_intervals (st : State) (hw : Words32 st) :
    ((genrand_real1 st).1 = ((genrand_int32 st).1 : ℚ) / (2 ^ 32 - 1) ∧
      0 ≤ (genrand_real1 st).1 ∧ (genrand_real1 st).1 ≤ 1 ∧
      ((genrand_real1 st).1 = 1 ↔ (genrand_int32 st).1 = 2 ^ 32 - 1) ∧
      ((genrand_real1 st).1 = 0 ↔ (genrand_int32 st).1 = 0)) ∧
    ((genrand_real2 st).1 = ((genrand_int32 st).1 : ℚ) / 2 ^ 32 ∧
      0 ≤ (genrand_real2 st).1 ∧ (genrand_real2 st).1 < 1) ∧
    ((genrand_real3 st).1 = (((genrand_int32 st).1 : ℚ) + 1 / 2) / 2 ^ 32 ∧
      0 < (genrand_real3 st).1 ∧ (genrand_real3 st).1 < 1) := by
  have h := genrand_int32_lt st hw
  unfold genrand_real1 genrand_real2 genrand_real3
  simp only
  generalize (genrand_int32 st).1 = w at h
  have hq : (w : ℚ) < 4294967296 := by exact_mod_cast h
  have hq0 : (0 : ℚ) ≤ (w : ℚ) := Nat.cast_nonneg w
  have hq1 : (w : ℚ) ≤ 4294967295 := by
    have : w ≤ 4294967295 := by omega
    exact_mod_cast this
  refine ⟨⟨by norm_num; ring, by positivity, ?_, ?_, ?_⟩, ⟨by norm_num; ring, by positivity, ?_⟩,
    ⟨by norm_num; ring, by positivity, ?_⟩⟩
  · linarith
  · constructor
    · intro e
      have : (w : ℚ) = 4294967295 := by linarith
      have : w = 4294967295 := by exact_mod_cast this
      omega
    · intro e
      have : w = 4294967295 := by omega
      subst this
      norm_num
  · constructor
    · intro e
      have : (w : ℚ) = 0 := by linarith
      exact_mod_cast this
    · intro e
      subst e
      norm_num
  · linarith
  · linarith

theorem real_outputs_intervals_witness :
    Words32 initial ∧
    (((genrand_real1 initial).1 = ((genrand_int32 initial).1 : ℚ) / (2 ^ 32 - 1) ∧
        0 ≤ (genrand_real1 initial).1 ∧ (genrand_real1 initial).1 ≤ 1 ∧
        ((genrand_real1 initial).1 = 1 ↔ (genrand_int32 initial).1 = 2 ^ 32 - 1) ∧
        ((genrand_real1 initial).1 = 0 ↔ (genrand_int32 initial).1 = 0)) ∧
      ((genrand_real2 initial).1 = ((genrand_int32 initial).1 : ℚ) / 2 ^ 32 ∧
        0 ≤ (genrand_real2 initial).1 ∧ (genrand_real2 initial).1 < 1) ∧
      ((genrand_real3 initial).1 = (((genrand_int32 initial).1 : ℚ) + 1 / 2) / 2 ^ 32 ∧
        0 < (genrand_real3 initial).1 ∧ (genrand_real3 initial).1 < 1)) :=
  ⟨words32_initial 625, real_outputs_intervals initial (words32_initial 625)⟩

/-- C13. `genrand_res53` draws two consecutive words `w1`, `w2` (the state it leaves is that
of two calls of `genrand_int32`) and returns `(a * 2^26 + b) / 2^53` with `a = w1 >> 5` and
`b = w2 >> 6`; the numerator is at most `2^53 - 1`, so the result lies in `[0,1)`. -/
theorem res53_spec (st : State) (hw : Words32 st) :
    (genrand_res53 st).2 = (draws 2 st).2 ∧
    (genrand_res53 st).1 =
      ((((genrand_int32 st).1 >>> 5) * 2 ^ 26 + (genrand_int32 (genrand_int32 st).2).1 >>> 6
        : Nat) : ℚ) / 2 ^ 53 ∧
    ((genrand_int32 st).1 >>> 5) * 2 ^ 26 + (genrand_int32 (genrand_int32 st).2).1 >>> 6
      ≤ 2 ^ 53 - 1 ∧
    0 ≤ (genrand_res53 st).1 ∧ (genrand_res53 st).1 < 1 := by
  have h1 := genrand_int32_lt st hw
  have h2 := genrand_int32_lt _ (inv_genrand_int32 st hw).2
  have hs : (genrand_res53 st).2 = (draws 2 st).2 := by
    simp only [genrand_res53, draws]
  have ha : (genrand_int32 st).1 >>> 5 < 2 ^ 27 := by
    rw [Nat.shiftRight_eq_div_pow]
    omega
  have hb : (genrand_int32 (genrand_int32 st).2).1 >>> 6 < 2 ^ 26 := by
    rw [Nat.shiftRight_eq_div_pow]
    omega
  unfold genrand_res53
  simp only
  generalize (genrand_int32 st).1 >>> 5 = a at ha
  generalize (genrand_int32 (genrand_int32 st).2).1 >>> 6 = b at hb
  have hn : a * 2 ^ 26 + b ≤ 2 ^ 53 - 1 := by omega
  have hq : ((a * 2 ^ 26 + b : Nat) : ℚ) ≤ 9007199254740991 := by
    have : a * 2 ^ 26 + b ≤ 9007199254740991 := by omega
    exact_mod_cast this
  have hq0 : (0 : ℚ) ≤ ((a * 2 ^ 26 + b : Nat) : ℚ) := Nat.cast_nonneg _
  have e : ((a : ℚ) * 67108864 + (b : ℚ)) = ((a * 2 ^ 26 + b : Nat) : ℚ) := by
    push_cast
    norm_num
  rw [e]
  generalize ((a * 2 ^ 26 + b : Nat) : ℚ) = q at hq hq0
  refine ⟨hs, by norm_num; ring, hn, by positivity, ?_⟩
  linarith

theorem res53_spec_witness :
    Words32 initial ∧
    ((genrand_res53 initial).2 = (draws 2 initial).2 ∧
      (genrand_res53 initial).1 =
        ((((genrand_int32 initial).1 >>> 5) * 2 ^ 26
          + (genrand_int32 (genrand_int32 initial).2).1 >>> 6 : Nat) : ℚ) / 2 ^ 53 ∧
      ((genrand_int32 initial).1 >>> 5) * 2 ^ 26
        + (genrand_int32 (genrand_int32 initial).2).1 >>> 6 ≤ 2 ^ 53 - 1 ∧
      0 ≤ (genrand_res53 initial).1 ∧ (genrand_res53 initial).1 < 1) :=
  ⟨words32_initial 625, res53_spec initial (words32_initial 625)⟩

/-- C17. Seeding guarantees a non-zero state: after `init_by_array` with a non-empty key
`mt[0] = 0x80000000`, whose top bit is one; after `init_genrand(s)`, for every seed `s`, one of
`mt[1]`, `mt[2]` is non-zero; so after either seeding the effective 19937-bit state is never
all zero. -/
theorem seeding_nonzero_state (st : State) :
    (∀ (v : Nat) (rest : List Nat), ∃ st2,
      init_by_array (v :: rest) (v :: rest).length st = some st2 ∧
      st2.read 0 = 0x80000000 ∧ (st2.read 0).testBit 31 = true ∧ ¬ EffectiveZero st2) ∧
    (∀ s : Nat, ((init_genrand s st).read 1 ≠ 0 ∨ (init_genrand s st).read 2 ≠ 0) ∧
      ¬ EffectiveZero (init_genrand s st)) := by
  constructor
  · intro v rest
    refine ⟨_, init_by_array_eq_spec (v :: rest) st (by simp), spec_init_by_array_read_zero _ _,
      ?_, ?_⟩
    · rw [spec_init_by_array_read_zero]
      decide
    · intro h
      have h0 := h.1
      rw [spec_init_by_array_read_zero] at h0
      revert h0
      decide
  · intro s
    have h12 : (init_genrand s st).read 1 ≠ 0 ∨ (init_genrand s st).read 2 ≠ 0 := by
      rw [init_genrand_read _ _ _ (by decide), init_genrand_read _ _ _ (by decide)]
      by_cases h : seedWord s 1 = 0
      · right
        show (1812433253 * (seedWord s 1 ^^^ (seedWord s 1 >>> 30)) + (1 + 1)) % 2 ^ 32 ≠ 0
        rw [h]
        decide
      · left
        exact h
    refine ⟨h12, fun hz => ?_⟩
    rcases h12 with h | h
    · exact h (hz.2 ⟨0, by decide⟩)
    · exact h (hz.2 ⟨1, by decide⟩)

/-- C18. Block structure of the stream: from a state with `mti = 624` and all words below
`2^32`, `n` consecutive calls of `genrand_int32` with `1 <= n <= 624` twist exactly once, on
the first call: with `W` the words left by the first call, the `i`-th call returns the
tempering of `W[i]`, and afterwards the words are `W` and `mti = n`. -/
theorem block_structure (st : State) (n : Nat) (hc : st.mti = 624) (hw : Words32 st)
    (h1 : 1 ≤ n) (hn : n ≤ 624) :
    (draws n st).1 = (List.range n).map (fun i => temper32 ((genrand_int32 st).2.read i)) ∧
    (draws n st).2.mt = (genrand_int32 st).2.mt ∧ (draws n st).2.mti = n ∧
    (genrand_int32 st).2.mt = (spec_twist st).mt := by
  obtain ⟨m, rfl⟩ : ∃ m, n = m + 1 := ⟨n - 1, by omega⟩
  rw [draws_block m st hc hn, genrand_int32_of_eq_N st hc]
  simp only [mt_setMti, mti_setMti, read_setMti, and_self, and_true]
  rw [List.range_eq_range']
  apply List.map_congr_left
  intro i hi
  rw [List.mem_range'_1] at hi
  exact temper_eq_temper32 _
    ((words32_iff_read _).1 (words32_spec_twist st hw) i (by unfold N; omega))

theorem block_structure_witness :
    (initial.setMti 624).mti = 624 ∧ Words32 (initial.setMti 624) ∧ 1 ≤ 624 ∧ 624 ≤ 624 ∧
    ((draws 624 (initial.setMti 624)).1 =
        (List.range 624).map (fun i => temper32 ((genrand_int32 (initial.setMti 624)).2.read i)) ∧
      (draws 624 (initial.setMti 624)).2.mt = (genrand_int32 (initial.setMti 624)).2.mt ∧
      (draws 624 (initial.setMti 624)).2.mti = 624 ∧
      (genrand_int32 (initial.setMti 624)).2.mt = (spec_twist (initial.setMti 624)).mt) :=
  ⟨rfl, words32_initial 624, by omega, by omega,
    block_structure (initial.setMti 624) 624 rfl (words32_initial 624) (by omega) (by omega)⟩

/-- C20. The lower 31 bits of `mt[0]` never influence the generator: two states with
`mti = 624` that agree on the top bit of `mt[0]` and on `mt[1..623]` give the same result of
`genrand_int32`, the same twisted words and the same cursor, hence the same later draws. -/
theorem low_bits_of_word0_ignored (st st2 : State) (hc : st.mti = 624) (hc2 : st2.mti = 624)
    (htop : st.read 0 &&& 0x80000000 = st2.read 0 &&& 0x80000000)
    (hrest : ∀ i : Fin 623, st.read (i.val + 1) = st2.read (i.val + 1)) :
    genrand_int32 st = genrand_int32 st2 ∧
    ∀ k : Nat, draws (k + 1) st = draws (k + 1) st2 := by
  have hr : ∀ j, 1 ≤ j → j < 624 → st.read j = st2.read j := by
    intro j h1 h2
    have := hrest ⟨j - 1, by omega⟩
    simp only at this
    rw [show j - 1 + 1 = j by omega] at this
    exact this
  have hstep : spec_twist_step st 0 = spec_twist_step st2 0 := by
    apply State.ext_read
    · show st.mti = st2.mti
      rw [hc, hc2]
    · intro j hj
      unfold spec_twist_step
      unfold N at hj
      by_cases h0 : j = 0
      · subst h0
        rw [read_write_same _ _ _ (by decide), read_write_same _ _ _ (by decide)]
        simp only [Nat.zero_add, show (1 : Nat) % 624 = 1 from rfl,
          show (397 : Nat) % 624 = 397 from rfl]
        rw [htop, hr 1 (by omega) (by omega), hr 397 (by omega) (by omega)]
      · rw [read_write_ne _ _ _ _ (Ne.symm h0), read_write_ne _ _ _ _ (Ne.symm h0)]
        exact hr j (by omega) hj
  have htw : spec_twist st = spec_twist st2 := by
    unfold spec_twist
    rw [range_624_at 0 (by omega), List.range'_zero, List.nil_append, List.foldl_cons,
      List.foldl_cons, hstep]
  have h1 : genrand_int32 st = genrand_int32 st2 := by
    rw [genrand_int32_of_eq_N st hc, genrand_int32_of_eq_N st2 hc2, htw]
  refine ⟨h1, fun k => ?_⟩
  simp only [draws]
  rw [h1]

theorem low_bits_of_word0_ignored_witness :
    (initial.setMti 624).mti = 624 ∧ ((initial.write 0 5).setMti 624).mti = 624 ∧
    (initial.setMti 624).read 0 &&& 0x80000000
      = ((initial.write 0 5).setMti 624).read 0 &&& 0x80000000 ∧
    (∀ i : Fin 623, (initial.setMti 624).read (i.val + 1)
      = ((initial.write 0 5).setMti 624).read (i.val + 1)) ∧
    (initial.setMti 624).read 0 ≠ ((initial.write 0 5).setMti 624).read 0 ∧
    (genrand_int32 (initial.setMti 624) = genrand_int32 ((initial.write 0 5).setMti 624) ∧
      ∀ k : Nat, draws (k + 1) (initial.setMti 624)
        = draws (k + 1) ((initial.write 0 5).setMti 624)) :=
  have e0 : (initial.setMti 624).read 0 = 0 := rfl
  have e5 : ((initial.write 0 5).setMti 624).read 0 = 5 := read_write_same _ _ _ (by decide)
  have hr : ∀ i : Fin 623, (initial.setMti 624).read (i.val + 1)
      = ((initial.write 0 5).setMti 624).read (i.val + 1) :=
    fun i => (read_write_ne initial 0 5 (i.val + 1) (by omega)).symm
  ⟨rfl, rfl, by rw [e0, e5]; decide, hr, by rw [e0, e5]; decide,
    low_bits_of_word0_ignored _ _ rfl rfl (by rw [e0, e5]; decide) hr⟩

/-- C19. The tempering applied by `genrand_int32` is a bijection of the 32-bit words: it maps
words below `2^32` to words below `2^32`, two different words below `2^32` never temper to
the same output, and every 32-bit value is the tempering of some word below `2^32`. -/
theorem temper_bijective :
    Set.BijOn temper (Set.Iio (2 ^ 32)) (Set.Iio (2 ^ 32)) := by
  refine ⟨fun x hx => temper_lt x hx, fun x hx y hy hxy => ?_, fun z hz => ?_⟩
  · have hx2 : x < 2 ^ 32 := hx
    have hy2 : y < 2 ^ 32 := hy
    rw [temper_eq_temper32 x hx2, temper_eq_temper32 y hy2] at hxy
    rw [← untemper32_temper32 x hx2, ← untemper32_temper32 y hy2, hxy]
  · have hz2 : z < 2 ^ 32 := hz
    refine ⟨untemper32 z, untemper32_lt z, ?_⟩
    rw [temper_eq_temper32 _ (untemper32_lt z)]
    exact temper32_untemper32 z hz2

/-! ## Closed form of array seeding -/

theorem spec_wrap_of_lt (i : Nat) (st : State) (h : i < 624) : spec_wrap i st = (i, st) := by
  unfold spec_wrap
  rw [if_neg (by omega)]

theorem spec_wrap_624 (st : State) : spec_wrap 624 st = (1, st.write 0 (st.read 623)) := by
  unfold spec_wrap
  rw [if_pos rfl]

theorem succ_mod_step (a L : Nat) (hL : 1 ≤ L) :
    (if a % L + 1 = L then 0 else a % L + 1) = (a + 1) % L := by
  have hlt : a % L < L := Nat.mod_lt _ (by omega)
  have e : (a + 1) % L = (a % L + 1) % L := by
    conv_lhs => rw [← Nat.mod_add_div a L]
    rw [Nat.add_right_comm, Nat.add_mul_mod_self_left]
  rw [e]
  by_cases h : a % L + 1 = L
  · rw [if_pos h, h, Nat.mod_self]
  · rw [if_neg h, Nat.mod_eq_of_lt (show a % L + 1 < L by omega)]

theorem spec_mix1_succ (key : List Nat) (n i j : Nat) (st : State) :
    spec_mix1 key (n + 1) i j st =
      spec_mix1 key n
        (spec_wrap (i + 1) (st.write i
          (((st.read i ^^^ ((st.read (i - 1) ^^^ (st.read (i - 1) >>> 30)) * 1664525))
            + key.getD j 0 + j) % 2 ^ 32))).1
        (if j + 1 = key.length then 0 else j + 1)
        (spec_wrap (i + 1) (st.write i
          (((st.read i ^^^ ((st.read (i - 1) ^^^ (st.read (i - 1) >>> 30)) * 1664525))
            + key.getD j 0 + j) % 2 ^ 32))).2 := rfl

theorem spec_mix2_succ (n i : Nat) (st : State) :
    spec_mix2 (n + 1) i st =
      spec_mix2 n
        (spec_wrap (i + 1) (st.write i
          ((((st.read i ^^^ ((st.read (i - 1) ^^^ (st.read (i - 1) >>> 30)) * 1566083941) : Nat)
            : Int) - (i : Int)) % 2 ^ 32).toNat)).1
        (spec_wrap (i + 1) (st.write i
          ((((st.read i ^^^ ((st.read (i - 1) ^^^ (st.read (i - 1) >>> 30)) * 1566083941) : Nat)
            : Int) - (i : Int)) % 2 ^ 32).toNat)).2 := rfl

/-- The part of the first pass that runs without wraparound: `n` rounds from index `a + 1`. -/
theorem spec_mix1_sweep (key : List Nat) (hL : 1 ≤ key.length) : ∀ (n a : Nat) (st : State),
    a + 1 + n ≤ 623 → st.read a = mix1Word key a →
    (∀ p, a + 1 ≤ p → p < 624 → st.read p = seedWord 19650218 p) →
    ∃ st2 : State,
      (∀ m, spec_mix1 key (n + m) (a + 1) (a % key.length) st =
        spec_mix1 key m (a + 1 + n) ((a + n) % key.length) st2) ∧
      (∀ p, p ≤ a → st2.read p = st.read p) ∧
      (∀ p, a + 1 ≤ p → p < a + 1 + n → st2.read p = mix1Word key p) ∧
      (∀ p, a + 1 + n ≤ p → p < 624 → st2.read p = seedWord 19650218 p) := by
  intro n
  induction n with
  | zero =>
    intro a st _ _ hs
    refine ⟨st, fun m => ?_, fun p _ => rfl, fun p h1 h2 => ?_, hs⟩
    · rw [Nat.zero_add]
      rfl
    · omega
  | succ n ih =>
    intro a st hb ha hs
    have hw : ((st.read (a + 1) ^^^ ((st.read (a + 1 - 1) ^^^ (st.read (a + 1 - 1) >>> 30))
        * 1664525)) + key.getD (a % key.length) 0 + a % key.length) % 2 ^ 32
        = mix1Word key (a + 1) := by
      rw [Nat.add_sub_cancel, ha, hs (a + 1) (Nat.le_refl _) (by omega)]
      rfl
    obtain ⟨st2, h1, h2, h3, h4⟩ := ih (a + 1)
      (st.write (a + 1) (mix1Word key (a + 1))) (by omega)
      (read_write_same _ _ _ (by unfold N; omega))
      (fun p hp1 hp2 => by
        rw [read_write_ne _ _ _ _ (by omega)]
        exact hs p (by omega) hp2)
    refine ⟨st2, fun m => ?_, fun p hp => ?_, fun p hp1 hp2 => ?_, fun p hp1 hp2 => ?_⟩
    · rw [show n + 1 + m = (n + m) + 1 by omega, spec_mix1_succ, hw,
        spec_wrap_of_lt _ _ (by omega), succ_mod_step a _ hL, h1 m,
        show a + 1 + 1 + n = a + 1 + (n + 1) by omega, show a + 1 + n = a + (n + 1) by omega]
    · rw [h2 p (by omega), read_write_ne _ _ _ _ (by omega)]
    · by_cases hp : p = a + 1
      · subst hp
        rw [h2 _ (Nat.le_refl _), read_write_same _ _ _ (by unfold N; omega)]
      · exact h3 p (by omega) (by omega)
    · exact h4 p (by omega) hp2

/-- The whole first pass, for a key of at most `624` elements, from the seeded words. -/
theorem spec_mix1_closed (key : List Nat) (hL : 1 ≤ key.length) (st : State)
    (hs : ∀ p, p < 624 → st.read p = seedWord 19650218 p) :
    ∃ T : State, spec_mix1 key 624 1 0 st = (2, T) ∧
      T.read 0 = mix1Word key 623 ∧ T.read 1 = mix1Last key ∧
      ∀ p, 2 ≤ p → p < 624 → T.read p = mix1Word key p := by
  obtain ⟨st2, h1, h2, h3, h4⟩ := spec_mix1_sweep key hL 622 0 st (by omega)
    (hs 0 (by omega)) (fun p _ hp => hs p hp)
  have h := h1 2
  simp only [Nat.reduceAdd, Nat.zero_add, Nat.zero_mod] at h h3 h4
  have hA : ((st2.read 623 ^^^ ((st2.read (623 - 1) ^^^ (st2.read (623 - 1) >>> 30)) * 1664525))
      + key.getD (622 % key.length) 0 + 622 % key.length) % 2 ^ 32 = mix1Word key 623 := by
    rw [h4 623 (by omega) (by omega), show 623 - 1 = 622 from rfl, h3 622 (by omega) (by omega)]
    rfl
  refine ⟨((st2.write 623 (mix1Word key 623)).write 0 (mix1Word key 623)).write 1
    (mix1Last key), ?_, ?_, ?_, ?_⟩
  · rw [h, spec_mix1_succ, hA, show 623 + 1 = 624 from rfl, spec_wrap_624,
      read_write_same _ _ _ (by decide), succ_mod_step 622 _ hL, spec_mix1_succ]
    simp only [Nat.reduceAdd, Nat.sub_self]
    rw [read_write_same _ _ _ (by decide), read_write_ne _ _ _ _ (by decide),
      read_write_ne _ _ _ _ (by decide), h3 1 (by omega) (by omega),
      spec_wrap_of_lt _ _ (by omega)]
    rfl
  · rw [read_write_ne _ _ _ _ (by decide), read_write_same _ _ _ (by decide)]
  · rw [read_write_same _ _ _ (by decide)]
  · intro p hp1 hp2
    rw [read_write_ne _ _ _ _ (by omega), read_write_ne _ _ _ _ (by omega)]
    by_cases hp : p = 623
    · subst hp
      rw [read_write_same _ _ _ (by decide)]
    · rw [read_write_ne _ _ _ _ (by omega)]
      exact h3 p (by omega) (by omega)

/-- The part of the second pass that runs without wraparound: `n` rounds from index `a + 1`. -/
theorem spec_mix2_sweep (key : List Nat) : ∀ (n a : Nat) (st : State),
    1 ≤ a → a + 1 + n ≤ 623 → st.read a = mix2Word key a →
    (∀ p, a + 1 ≤ p → p < 624 → st.read p = mix1Word key p) →
    ∃ st2 : State,
      (∀ m, spec_mix2 (n + m) (a + 1) st = spec_mix2 m (a + 1 + n) st2) ∧
      (∀ p, p ≤ a → st2.read p = st.read p) ∧
      (∀ p, a + 1 ≤ p → p < a + 1 + n → st2.read p = mix2Word key p) ∧
      (∀ p, a + 1 + n ≤ p → p < 624 → st2.read p = mix1Word key p) := by
  intro n
  induction n with
  | zero =>
    intro a st _ _ _ hs
    refine ⟨st, fun m => ?_, fun p _ => rfl, fun p h1 h2 => ?_, hs⟩
    · rw [Nat.zero_add]
    · omega
  | succ n ih =>
    intro a st ha1 hb ha hs
    have hw : ((((st.read (a + 1) ^^^ ((st.read (a + 1 - 1) ^^^ (st.read (a + 1 - 1) >>> 30))
        * 1566083941) : Nat) : Int) - ((a + 1 : Nat) : Int)) % 2 ^ 32).toNat
        = mix2Word key (a + 1) := by
      rw [Nat.add_sub_cancel, ha, hs (a + 1) (Nat.le_refl _) (by omega), mix2Word,
        if_neg (by omega)]
    obtain ⟨st2, h1, h2, h3, h4⟩ := ih (a + 1)
      (st.write (a + 1) (mix2Word key (a + 1))) (by omega) (by omega)
      (read_write_same _ _ _ (by unfold N; omega))
      (fun p hp1 hp2 => by
        rw [read_write_ne _ _ _ _ (by omega)]
        exact hs p (by omega) hp2)
    refine ⟨st2, fun m => ?_, fun p hp => ?_, fun p hp1 hp2 => ?_, fun p hp1 hp2 => ?_⟩
    · rw [show n + 1 + m = (n + m) + 1 by omega, spec_mix2_succ, hw,
        spec_wrap_of_lt _ _ (by omega), h1 m,
        show a + 1 + 1 + n = a + 1 + (n + 1) by omega]
    · rw [h2 p (by omega), read_write_ne _ _ _ _ (by omega)]
    · by_cases hp : p = a + 1
      · subst hp
        rw [h2 _ (Nat.le_refl _), read_write_same _ _ _ (by unfold N; omega)]
      · exact h3 p (by omega) (by omega)
    · exact h4 p (by omega) hp2

/-- The whole second pass, from the state the first pass leaves. -/
theorem spec_mix2_closed (key : List Nat) (T : State)
    (h1T : T.read 1 = mix1Last key) (hT : ∀ p, 2 ≤ p → p < 624 → T.read p = mix1Word key p) :
    ∃ U : State, spec_mix2 623 2 T = (2, U) ∧ U.read 1 = mix2Last key ∧
      ∀ p, 2 ≤ p → p < 624 → U.read p = mix2Word key p := by
  obtain ⟨st2, h1, h2, h3, h4⟩ := spec_mix2_sweep key 621 1 T (by omega) (by omega)
    (by rw [h1T]; rfl) (fun p hp1 hp2 => hT p (by omega) hp2)
  have h := h1 2
  simp only [Nat.reduceAdd] at h h3 h4
  have hA : ((((st2.read 623 ^^^ ((st2.read (623 - 1) ^^^ (st2.read (623 - 1) >>> 30))
      * 1566083941) : Nat) : Int) - ((623 : Nat) : Int)) % 2 ^ 32).toNat
      = mix2Word key 623 := by
    rw [h4 623 (by omega) (by omega), show 623 - 1 = 622 from rfl, h3 622 (by omega) (by omega)]
    rfl
  have h21 : st2.read 1 = mix2Word key 1 := by
    rw [h2 1 (by omega), h1T]
    rfl
  refine ⟨((st2.write 623 (mix2Word key 623)).write 0 (mix2Word key 623)).write 1
    (mix2Last key), ?_, ?_, ?_⟩
  · rw [h, spec_mix2_succ, hA, show 623 + 1 = 624 from rfl, spec_wrap_624,
      read_write_same _ _ _ (by decide), spec_mix2_succ]
    simp only [Nat.reduceAdd, Nat.sub_self]
    rw [read_write_same _ _ _ (by decide), read_write_ne _ _ _ _ (by decide),
      read_write_ne _ _ _ _ (by decide), h21, spec_wrap_of_lt _ _ (by omega)]
    rfl
  · rw [read_write_same _ _ _ (by decide)]
  · intro p hp1 hp2
    rw [read_write_ne _ _ _ _ (by omega), read_write_ne _ _ _ _ (by omega)]
    by_cases hp : p = 623
    · subst hp
      rw [read_write_same _ _ _ (by decide)]
    · rw [read_write_ne _ _ _ _ (by omega)]
      exact h3 p (by omega) (by omega)

/-- The words that array seeding leaves, for a key of `1` to `624` elements, in closed form. -/
theorem spec_init_by_array_read (key : List Nat) (hL : 1 ≤ key.length)
    (hL2 : key.length ≤ 624) (st : State) :
    (spec_init_by_array key st).read 1 = mix2Last key ∧
    ∀ p, 2 ≤ p → p < 624 → (spec_init_by_array key st).read p = mix2Word key p := by
  obtain ⟨T, hT, _, hT1, hTp⟩ := spec_mix1_closed key hL (init_genrand 19650218 st)
    (fun p hp => init_genrand_read _ _ _ hp)
  obtain ⟨U, hU, hU1, hUp⟩ := spec_mix2_closed key T hT1 hTp
  unfold spec_init_by_array
  simp only
  rw [show max 624 key.length = 624 by omega, hT]
  simp only
  rw [hU]
  simp only [read_setMti]
  refine ⟨?_, fun p hp1 hp2 => ?_⟩
  · rw [read_write_ne _ _ _ _ (by decide)]
    exact hU1
  · rw [read_write_ne _ _ _ _ (by omega)]
    exact hUp p hp1 hp2

theorem spec_init_by_array_mti (key : List Nat) (st : State) :
    (spec_init_by_array key st).mti = N := by
  unfold spec_init_by_array
  simp only [mti_setMti]
  rfl

/-- The first five tempered words of the block twisted from the words that array seeding
leaves for the key `{0x123, 0x234, 0x345, 0x456}`. -/
theorem first_block_array :
    [temper (mix2Word [0x123, 0x234, 0x345, 0x456] 397 ^^^
          (((0x80000000 &&& 0x80000000) ||| (mix2Last [0x123, 0x234, 0x345, 0x456] &&& 0x7fffffff)) >>> 1) ^^^
          (if ((0x80000000 &&& 0x80000000) ||| (mix2Last [0x123, 0x234, 0x345, 0x456] &&& 0x7fffffff)) % 2 = 1
            then 0x9908b0df else 0)),
      temper (mix2Word [0x123, 0x234, 0x345, 0x456] 398 ^^^
          (((mix2Last [0x123, 0x234, 0x345, 0x456] &&& 0x80000000) ||| (mix2Word [0x123, 0x234, 0x345, 0x456] 2 &&& 0x7fffffff)) >>> 1) ^^^
          (if ((mix2Last [0x123, 0x234, 0x345, 0x456] &&& 0x80000000) ||| (mix2Word [0x123, 0x234, 0x345, 0x456] 2 &&& 0x7fffffff)) % 2 = 1
            then 0x9908b0df else 0)),
      temper (mix2Word [0x123, 0x234, 0x345, 0x456] 399 ^^^
          (((mix2Word [0x123, 0x234, 0x345, 0x456] 2 &&& 0x80000000) ||| (mix2Word [0x123, 0x234, 0x345, 0x456] 3 &&& 0x7fffffff)) >>> 1) ^^^
          (if ((mix2Word [0x123, 0x234, 0x345, 0x456] 2 &&& 0x80000000) ||| (mix2Word [0x123, 0x234, 0x345, 0x456] 3 &&& 0x7fffffff)) % 2 = 1
            then 0x9908b0df else 0)),
      temper (mix2Word [0x123, 0x234, 0x345, 0x456] 400 ^^^
          (((mix2Word [0x123, 0x234, 0x345, 0x456] 3 &&& 0x80000000) ||| (mix2Word [0x123, 0x234, 0x345, 0x456] 4 &&& 0x7fffffff)) >>> 1) ^^^
          (if ((mix2Word [0x123, 0x234, 0x345, 0x456] 3 &&& 0x80000000) ||| (mix2Word [0x123, 0x234, 0x345, 0x456] 4 &&& 0x7fffffff)) % 2 = 1
            then 0x9908b0df else 0)),
      temper (mix2Word [0x123, 0x234, 0x345, 0x456] 401 ^^^
          (((mix2Word [0x123, 0x234, 0x345, 0x456] 4 &&& 0x80000000) ||| (mix2Word [0x123, 0x234, 0x345, 0x456] 5 &&& 0x7fffffff)) >>> 1) ^^^
          (if ((mix2Word [0x123, 0x234, 0x345, 0x456] 4 &&& 0x80000000) ||| (mix2Word [0x123, 0x234, 0x345, 0x456] 5 &&& 0x7fffffff)) % 2 = 1
            then 0x9908b0df else 0))] =
      [1067595299, 955945823, 477289528, 4107218783, 4228976476] := by
  decide!

/-- For the key `{0x80000000}` array seeding and scalar seeding leave different words at
index `1`. -/
theorem word1_array_ne_scalar : mix2Last [0x80000000] ≠ seedWord 0x80000000 1 := by
  decide!

/-- The word at index `40` of the block twisted from the words of seed `74800405` tempers
to `2^32 - 1`. -/
theorem block_74800405_at_40 :
    temper (seedWord 74800405 437 ^^^
        (((seedWord 74800405 40 &&& 0x80000000) ||| (seedWord 74800405 41 &&& 0x7fffffff)) >>> 1) ^^^
        (if ((seedWord 74800405 40 &&& 0x80000000) ||| (seedWord 74800405 41 &&& 0x7fffffff)) % 2 = 1
          then 0x9908b0df else 0)) =
      4294967295 := by
  decide!

/-- C16. Known-answer vector for array seeding: `init_by_array` with the key
`{0x123, 0x234, 0x345, 0x456}` of length `4` completes, from any state, and the first five
calls of `genrand_int32` then return 1067595299, 955945823, 477289528, 4107218783,
4228976476 in that order. -/
theorem known_answer_array (st : State) :
    ∃ st2, init_by_array [0x123, 0x234, 0x345, 0x456] 4 st = some st2 ∧
      (draws 5 st2).1 = [1067595299, 955945823, 477289528, 4107218783, 4228976476] := by
  refine ⟨spec_init_by_array [0x123, 0x234, 0x345, 0x456] st,
    init_by_array_eq_spec [0x123, 0x234, 0x345, 0x456] st (by decide), ?_⟩
  obtain ⟨h1, hp⟩ := spec_init_by_array_read [0x123, 0x234, 0x345, 0x456] (by decide)
    (by decide) st
  rw [draws_block 4 _ (spec_init_by_array_mti _ _) (by decide)]
  simp only [List.range'_succ, List.range'_zero, List.map_cons, List.map_nil, Nat.zero_add,
    Nat.reduceAdd]
  rw [spec_twist_read_low _ 0 (by decide), spec_twist_read_low _ 1 (by decide),
    spec_twist_read_low _ 2 (by decide), spec_twist_read_low _ 3 (by decide),
    spec_twist_read_low _ 4 (by decide)]
  simp only [Nat.zero_add, Nat.reduceAdd]
  rw [spec_init_by_array_read_zero, h1, hp 2 (by omega) (by omega), hp 3 (by omega) (by omega),
    hp 4 (by omega) (by omega), hp 5 (by omega) (by omega), hp 397 (by omega) (by omega),
    hp 398 (by omega) (by omega), hp 399 (by omega) (by omega), hp 400 (by omega) (by omega),
    hp 401 (by omega) (by omega)]
  exact first_block_array

/-- C11. Array seeding with a single-element key differs from scalar seeding with the same
value: for every 32-bit value `v`, `init_by_array([v], 1)` completes and the 624 words it
leaves are not the 624 words left by `init_genrand(v)`, whatever the states before the two
calls (for `v = 0x80000000` the words at index `0` coincide and those at index `1` differ). -/
theorem array_seed_differs_from_scalar (v : Nat) (hv : v < 2 ^ 32) (st st3 : State) :
    ∃ st2, init_by_array [v] 1 st = some st2 ∧ st2.mt ≠ (init_genrand v st3).mt := by
  refine ⟨spec_init_by_array [v] st, init_by_array_singleton v st, fun h => ?_⟩
  have hr : ∀ p, (spec_init_by_array [v] st).read p = (init_genrand v st3).read p := by
    intro p
    unfold State.read
    rw [h]
  by_cases hv2 : v = 0x80000000
  · subst hv2
    have h1 := hr 1
    rw [(spec_init_by_array_read [0x80000000] (by decide) (by decide) st).1,
      init_genrand_read _ _ _ (by decide)] at h1
    exact word1_array_ne_scalar h1
  · have h0 := hr 0
    rw [spec_init_by_array_read_zero, init_genrand_read _ _ _ (by decide)] at h0
    have : seedWord v 0 = v := Nat.mod_eq_of_lt hv
    omega

theorem array_seed_differs_from_scalar_witness :
    (0x80000000 : Nat) < 2 ^ 32 ∧
    ∃ st2, init_by_array [0x80000000] 1 initial = some st2 ∧
      st2.mt ≠ (init_genrand 0x80000000 initial).mt :=
  ⟨by decide, array_seed_differs_from_scalar 0x80000000 (by decide) initial initial⟩

/-- C14 fails on the code: after `init_genrand(74800405)` and `40` draws, the next raw word is
`2^32 - 1`, `genrand_real1` returns `1`, and the value `1 - X` that `negExp` passes to `log`
is `0`. -/
theorem negExp_log_arg_zero (st : State) :
    (genrand_int32 (draws 40 (init_genrand 74800405 st)).2).1 = 2 ^ 32 - 1 ∧
    (genrand_real1 (draws 40 (init_genrand 74800405 st)).2).1 = 1 ∧
    (negExp_log_arg (draws 40 (init_genrand 74800405 st)).2).1 = 0 := by
  have hw : (genrand_int32 (draws 40 (init_genrand 74800405 st)).2).1 = 4294967295 := by
    rw [draws_block 39 _ (init_genrand_mti _ _) (by decide)]
    simp only [Nat.reduceAdd]
    rw [genrand_int32_of_lt _ (by simp only [mti_setMti]; decide)]
    simp only [mti_setMti, read_setMti]
    rw [spec_twist_read_low _ 40 (by decide)]
    simp only [Nat.reduceAdd]
    rw [init_genrand_read _ _ _ (by decide), init_genrand_read _ _ _ (by decide),
      init_genrand_read _ _ _ (by decide)]
    exact block_74800405_at_40
  unfold negExp_log_arg genrand_real1
  simp only
  rw [hw]
  norm_num

/-- Words at index `1` after array seeding with the keys `{5}` and `{6}`, and after scalar
seeding with `19650218`. -/
theorem word1_keys_5_6 :
    mix2Last [5] = 2796186638 ∧ mix2Last [6] = 3062460959 ∧
    seedWord 19650218 1 = 2194844435 := by
  decide!

/-- C10 fails on the code: with `key_length = 0` and the array `{5}`, `init_by_array` called in
the initial state reports nothing and completes with the seeded state of the key `{5}`:
`mt[0]` is `0x80000000` and `mt[1]` is `2796186638`, no longer the `19650218` and
`2194844435` of the scalar seeding it starts from; with the array `{6}` it leaves
`mt[1] = 3062460959`, so the element `init_key[0]` has been read. -/
theorem init_by_array_zero_length_not_rejected :
    init_by_array [5] 0 initial ≠ none ∧
    init_by_array [5] 0 initial = init_by_array [5] 1 initial ∧
    (∃ st2, init_by_array [5] 0 initial = some st2 ∧
      st2.read 0 = 0x80000000 ∧ (init_genrand 19650218 initial).read 0 = 19650218 ∧
      st2.read 1 = 2796186638 ∧ (init_genrand 19650218 initial).read 1 = 2194844435) ∧
    (∃ st3, init_by_array [6] 0 initial = some st3 ∧ st3.read 1 = 3062460959) := by
  have h := init_by_array_zero_len 5 [] initial
  have h2 := init_by_array_singleton 5 initial
  have h6 := (init_by_array_zero_len 6 [] initial).trans (init_by_array_singleton 6 initial)
  refine ⟨by rw [h, h2]; exact Option.some_ne_none _, h, ⟨_, h.trans h2, ?_, ?_, ?_, ?_⟩,
    ⟨_, h6, ?_⟩⟩
  · exact spec_init_by_array_read_zero [5] initial
  · rw [init_genrand_read _ _ _ (by decide)]
    rfl
  · rw [(spec_init_by_array_read [5] (by decide) (by decide) initial).1]
    exact word1_keys_5_6.1
  · rw [init_genrand_read _ _ _ (by decide)]
    exact word1_keys_5_6.2.2
  · rw [(spec_init_by_array_read [6] (by decide) (by decide) initial).1]
    exact word1_keys_5_6.2.1

/-! ## Double rounding -/

theorem roundHalfEven_bounds (q : ℚ) :
    (roundHalfEven q : ℚ) - 1 / 2 ≤ q ∧ q ≤ (roundHalfEven q : ℚ) + 1 / 2 := by
  have h1 := Int.floor_le q
  have h2 := Int.lt_floor_add_one q
  unfold roundHalfEven
  split_ifs with a b c
  · constructor <;> linarith
  · push_cast; constructor <;> linarith
  · constructor <;> linarith
  · push_cast; constructor <;> linarith

theorem roundHalfEven_intCast (n : Int) : roundHalfEven (n : ℚ) = n := by
  unfold roundHalfEven
  rw [Int.floor_intCast]
  simp

theorem roundHalfEven_mono {q q2 : ℚ} (h : q ≤ q2) : roundHalfEven q ≤ roundHalfEven q2 := by
  by_contra hlt
  push_neg at hlt
  have hb := roundHalfEven_bounds q
  have hb2 := roundHalfEven_bounds q2
  have h1 : roundHalfEven q2 + 1 ≤ roundHalfEven q := hlt
  have h1q : (roundHalfEven q2 : ℚ) + 1 ≤ (roundHalfEven q : ℚ) := by exact_mod_cast h1
  have e : q = q2 := by linarith
  rw [e] at hlt
  exact lt_irrefl _ hlt


theorem two_zpow_pos (k : Int) : (0 : ℚ) < 2 ^ k := zpow_pos (by norm_num) k

theorem ulpExp_ge (x : ℚ) : -1074 ≤ ulpExp x := by
  unfold ulpExp
  split
  · exact le_refl _
  · have := le_max_right (Int.log 2 |x|) (-1022)
    omega

theorem ulpExp_mono {x y : ℚ} (h : |x| ≤ |y|) : ulpExp x ≤ ulpExp y := by
  by_cases hx : x = 0
  · rw [hx]
    have := ulpExp_ge y
    simpa [ulpExp] using this
  · have hy : y ≠ 0 := by
      intro hy
      rw [hy, abs_zero] at h
      exact hx (abs_eq_zero.1 (le_antisymm h (abs_nonneg x)))
    unfold ulpExp
    rw [if_neg hx, if_neg hy]
    have := Int.log_mono_right (b := 2) (abs_pos.2 hx) h
    have := max_le_max this (le_refl (-1022 : Int))
    omega

/-- The magnitude of `x` is below `2^(ulpExp x + 53)`. -/
theorem abs_lt_two_zpow_ulpExp (x : ℚ) : |x| < 2 ^ (ulpExp x + 53) := by
  by_cases hx : x = 0
  · rw [hx, abs_zero]
    exact two_zpow_pos _
  · have h1 := Int.lt_zpow_succ_log_self (b := 2) (by norm_num) |x|
    have h2 : Int.log 2 |x| + 1 ≤ ulpExp x + 53 := by
      unfold ulpExp
      rw [if_neg hx]
      have := le_max_left (Int.log 2 |x|) (-1022)
      omega
    have h3 : (2 : ℚ) ^ (Int.log 2 |x| + 1) ≤ 2 ^ (ulpExp x + 53) :=
      zpow_le_zpow_right₀ (by norm_num) h2
    push_cast at h1
    exact lt_of_lt_of_le h1 h3

/-- A normal number is at least `2^(ulpExp x + 52)`. -/
theorem two_zpow_ulpExp_le_abs (x : ℚ) (hx : 2 ^ (-1022 : Int) ≤ |x|) :
    2 ^ (ulpExp x + 52) ≤ |x| := by
  have hpos : 0 < |x| := lt_of_lt_of_le (two_zpow_pos _) hx
  have hx0 : x ≠ 0 := abs_pos.1 hpos
  have h1 := Int.zpow_log_le_self (b := 2) (by norm_num) hpos
  have h2 : (-1022 : Int) ≤ Int.log 2 |x| := by
    have := (Int.zpow_le_iff_le_log (b := 2) (by norm_num) hpos).1 (by push_cast; exact hx)
    exact this
  have h3 : ulpExp x + 52 = Int.log 2 |x| := by
    unfold ulpExp
    rw [if_neg hx0, max_eq_left h2]
    omega
  rw [h3]
  push_cast at h1
  exact h1

theorem rnd_zero : rnd 0 = 0 := by
  unfold rnd
  rw [zero_div, show (0 : ℚ) = ((0 : Int) : ℚ) by norm_num, roundHalfEven_intCast]
  simp

theorem rnd_sub_le (x : ℚ) : |rnd x - x| ≤ 2 ^ ulpExp x / 2 := by
  have hu := two_zpow_pos (ulpExp x)
  have hb := roundHalfEven_bounds (x / 2 ^ ulpExp x)
  have e : x = x / 2 ^ ulpExp x * 2 ^ ulpExp x := by field_simp
  unfold rnd
  generalize roundHalfEven (x / 2 ^ ulpExp x) = n at hb
  generalize hq : x / 2 ^ ulpExp x = q at hb e
  generalize (2 : ℚ) ^ ulpExp x = u at hu e
  rw [abs_le]
  rw [e]
  constructor <;> nlinarith


/-- A number `m * 2^k` with `|m| < 2^53` and `k >= -1074` is not changed by rounding. -/
theorem rnd_of_scaled (m k : Int) (hm : |m| < 2 ^ 53) (hk : -1074 ≤ k) :
    rnd ((m : ℚ) * 2 ^ k) = (m : ℚ) * 2 ^ k := by
  by_cases hm0 : m = 0
  · rw [hm0]
    simp [rnd_zero]
  have hx0 : (m : ℚ) * 2 ^ k ≠ 0 :=
    mul_ne_zero (by exact_mod_cast hm0) (ne_of_gt (two_zpow_pos k))
  have hlt : |(m : ℚ) * 2 ^ k| < 2 ^ (53 + k) := by
    rw [abs_mul, abs_of_pos (two_zpow_pos k), zpow_add₀ (by norm_num : (2 : ℚ) ≠ 0)]
    have : |(m : ℚ)| < 2 ^ (53 : Int) := by
      have : ((|m| : Int) : ℚ) < ((2 ^ 53 : Int) : ℚ) := by exact_mod_cast hm
      rw [Int.cast_abs] at this
      norm_num at this ⊢
      exact this
    exact mul_lt_mul_of_pos_right this (two_zpow_pos k)
  have hlog : Int.log 2 |(m : ℚ) * 2 ^ k| < 53 + k :=
    (Int.lt_zpow_iff_log_lt (b := 2) (by norm_num) (abs_pos.2 hx0)).1 (by push_cast; exact hlt)
  have hu : ulpExp ((m : ℚ) * 2 ^ k) ≤ k := by
    unfold ulpExp
    rw [if_neg hx0]
    have := max_le (a := Int.log 2 |(m : ℚ) * 2 ^ k|) (b := -1022) (c := 52 + k)
      (by omega) (by omega)
    omega
  obtain ⟨j, hj⟩ := Int.eq_ofNat_of_zero_le (show 0 ≤ k - ulpExp ((m : ℚ) * 2 ^ k) by omega)
  have hk2 : k = ulpExp ((m : ℚ) * 2 ^ k) + (j : Int) := by omega
  unfold rnd
  generalize ulpExp ((m : ℚ) * 2 ^ k) = u at hk2
  have e : (m : ℚ) * 2 ^ k / 2 ^ u = ((m * 2 ^ j : Int) : ℚ) := by
    rw [hk2, zpow_add₀ (by norm_num : (2 : ℚ) ≠ 0), zpow_natCast]
    push_cast
    field_simp
    ring
  rw [e, roundHalfEven_intCast, hk2, zpow_add₀ (by norm_num : (2 : ℚ) ≠ 0), zpow_natCast]
  push_cast
  ring

theorem rnd_nonneg {x : ℚ} (hx : 0 ≤ x) : 0 ≤ rnd x := by
  unfold rnd
  have h := roundHalfEven_mono (div_nonneg hx (le_of_lt (two_zpow_pos (ulpExp x))))
  rw [show (0 : ℚ) = ((0 : Int) : ℚ) by norm_num, roundHalfEven_intCast] at h
  exact mul_nonneg (by exact_mod_cast h) (le_of_lt (two_zpow_pos _))

theorem rnd_nonpos {x : ℚ} (hx : x ≤ 0) : rnd x ≤ 0 := by
  unfold rnd
  have h := roundHalfEven_mono (div_nonpos_of_nonpos_of_nonneg hx
    (le_of_lt (two_zpow_pos (ulpExp x))))
  rw [show (0 : ℚ) = ((0 : Int) : ℚ) by norm_num, roundHalfEven_intCast] at h
  exact mul_nonpos_of_nonpos_of_nonneg (by exact_mod_cast h) (le_of_lt (two_zpow_pos _))

/-- The integer significand that rounding gives has magnitude at most `2^53`. -/
theorem roundHalfEven_ulp_bounds (x : ℚ) :
    -(2 ^ 53 : Int) ≤ roundHalfEven (x / 2 ^ ulpExp x) ∧
    roundHalfEven (x / 2 ^ ulpExp x) ≤ (2 ^ 53 : Int) := by
  have hu := two_zpow_pos (ulpExp x)
  have h := abs_lt_two_zpow_ulpExp x
  rw [zpow_add₀ (by norm_num : (2 : ℚ) ≠ 0), abs_lt] at h
  have h1 : ((-(2 ^ 53 : Int) : Int) : ℚ) ≤ x / 2 ^ ulpExp x := by
    rw [le_div_iff₀ hu]
    push_cast
    norm_num at h ⊢
    linarith
  have h2 : x / 2 ^ ulpExp x ≤ ((2 ^ 53 : Int) : ℚ) := by
    rw [div_le_iff₀ hu]
    push_cast
    norm_num at h ⊢
    linarith
  have r1 := roundHalfEven_mono h1
  have r2 := roundHalfEven_mono h2
  rw [roundHalfEven_intCast] at r1 r2
  exact ⟨r1, r2⟩

theorem rnd_abs_le (x : ℚ) : |rnd x| ≤ 2 ^ (ulpExp x + 53) := by
  have hu := two_zpow_pos (ulpExp x)
  obtain ⟨h1, h2⟩ := roundHalfEven_ulp_bounds x
  unfold rnd
  generalize roundHalfEven (x / 2 ^ ulpExp x) = n at h1 h2
  have q1 : (-(2 ^ 53 : ℚ)) ≤ (n : ℚ) := by exact_mod_cast h1
  have q2 : (n : ℚ) ≤ 2 ^ 53 := by exact_mod_cast h2
  rw [zpow_add₀ (by norm_num : (2 : ℚ) ≠ 0), abs_le]
  norm_num
  constructor <;> nlinarith

/-- Above the smallest binade, a number has magnitude at least `2^(ulpExp x + 52)`. -/
theorem two_zpow_le_abs_of_ulpExp {x : ℚ} (h : -1074 < ulpExp x) :
    2 ^ (ulpExp x + 52) ≤ |x| := by
  apply two_zpow_ulpExp_le_abs
  have hx0 : x ≠ 0 := by
    intro e
    rw [e] at h
    simp [ulpExp] at h
  unfold ulpExp at h
  rw [if_neg hx0] at h
  have hl : (-1022 : Int) ≤ Int.log 2 |x| := by
    by_contra hc
    push_neg at hc
    rw [max_eq_right (le_of_lt hc)] at h
    omega
  have := (Int.zpow_le_iff_le_log (b := 2) (by norm_num) (abs_pos.2 hx0)).2 hl
  push_cast at this
  exact this


theorem rnd_idem (x : ℚ) : rnd (rnd x) = rnd x := by
  obtain ⟨h1, h2⟩ := roundHalfEven_ulp_bounds x
  have hu := ulpExp_ge x
  have e : rnd x = (roundHalfEven (x / 2 ^ ulpExp x) : ℚ) * 2 ^ ulpExp x := rfl
  generalize roundHalfEven (x / 2 ^ ulpExp x) = n at h1 h2 e
  rw [e]
  by_cases hn : |n| < 2 ^ 53
  · exact rnd_of_scaled n _ hn hu
  · have hn2 : n = 2 ^ 53 ∨ n = -(2 ^ 53) := by
      rw [abs_lt] at hn
      omega
    rcases hn2 with hn2 | hn2
    · have e2 : (n : ℚ) * 2 ^ ulpExp x = ((1 : Int) : ℚ) * 2 ^ (ulpExp x + 53) := by
        rw [hn2, zpow_add₀ (by norm_num : (2 : ℚ) ≠ 0)]
        push_cast
        norm_num
        ring
      rw [e2]
      exact rnd_of_scaled 1 _ (by norm_num) (by omega)
    · have e2 : (n : ℚ) * 2 ^ ulpExp x = ((-1 : Int) : ℚ) * 2 ^ (ulpExp x + 53) := by
        rw [hn2, zpow_add₀ (by norm_num : (2 : ℚ) ≠ 0)]
        push_cast
        norm_num
        ring
      rw [e2]
      exact rnd_of_scaled (-1) _ (by norm_num) (by omega)

theorem two_zpow_le_rnd {y : ℚ} (hy : 0 < y) (h : -1074 < ulpExp y) :
    2 ^ (ulpExp y + 52) ≤ rnd y := by
  have hp := two_zpow_pos (ulpExp y)
  have h2 := two_zpow_le_abs_of_ulpExp h
  rw [abs_of_pos hy, zpow_add₀ (by norm_num : (2 : ℚ) ≠ 0)] at h2
  have h3 : (((2 ^ 52 : Int) : Int) : ℚ) ≤ y / 2 ^ ulpExp y := by
    rw [le_div_iff₀ hp]
    push_cast
    norm_num at h2 ⊢
    linarith
  have h4 := roundHalfEven_mono h3
  rw [roundHalfEven_intCast] at h4
  have h5 : ((2 : ℚ) ^ 52) ≤ (roundHalfEven (y / 2 ^ ulpExp y) : ℚ) := by exact_mod_cast h4
  unfold rnd
  rw [zpow_add₀ (by norm_num : (2 : ℚ) ≠ 0)]
  norm_num
  nlinarith

theorem rnd_le_neg_two_zpow {y : ℚ} (hy : y < 0) (h : -1074 < ulpExp y) :
    rnd y ≤ -2 ^ (ulpExp y + 52) := by
  have hp := two_zpow_pos (ulpExp y)
  have h2 := two_zpow_le_abs_of_ulpExp h
  rw [abs_of_neg hy, zpow_add₀ (by norm_num : (2 : ℚ) ≠ 0)] at h2
  have h3 : y / 2 ^ ulpExp y ≤ (((-(2 ^ 52) : Int) : Int) : ℚ) := by
    rw [div_le_iff₀ hp]
    push_cast
    norm_num at h2 ⊢
    linarith
  have h4 := roundHalfEven_mono h3
  rw [roundHalfEven_intCast] at h4
  have h5 : (roundHalfEven (y / 2 ^ ulpExp y) : ℚ) ≤ -((2 : ℚ) ^ 52) := by exact_mod_cast h4
  unfold rnd
  rw [zpow_add₀ (by norm_num : (2 : ℚ) ≠ 0)]
  norm_num
  nlinarith

/-- Rounding is monotone. -/
theorem rnd_mono {x y : ℚ} (h : x ≤ y) : rnd x ≤ rnd y := by
  by_cases hu : ulpExp x = ulpExp y
  · unfold rnd
    rw [hu]
    have hp := two_zpow_pos (ulpExp y)
    have := roundHalfEven_mono (div_le_div_of_nonneg_right h (le_of_lt hp))
    exact mul_le_mul_of_nonneg_right (by exact_mod_cast this) (le_of_lt hp)
  · rcases le_or_lt 0 x with hx | hx
    · have hy : 0 ≤ y := le_trans hx h
      have hlt : ulpExp x < ulpExp y :=
        lt_of_le_of_ne (ulpExp_mono (by rw [abs_of_nonneg hx, abs_of_nonneg hy]; exact h)) hu
      have hy0 : 0 < y := by
        rcases eq_or_lt_of_le hy with e | e
        · exfalso
          have hx0 : x = 0 := le_antisymm (by rw [e]; exact h) hx
          rw [← e, hx0] at hu
          exact hu rfl
        · exact e
      have h1 := le_trans (le_abs_self _) (rnd_abs_le x)
      have h2 := two_zpow_le_rnd hy0 (by have := ulpExp_ge x; omega)
      have h3 : (2 : ℚ) ^ (ulpExp x + 53) ≤ 2 ^ (ulpExp y + 52) :=
        zpow_le_zpow_right₀ (by norm_num) (by omega)
      linarith
    · rcases le_or_lt y 0 with hy | hy
      · have hlt : ulpExp y < ulpExp x :=
          lt_of_le_of_ne (ulpExp_mono (by
            rw [abs_of_neg hx, abs_of_nonpos hy]
            linarith)) (Ne.symm hu)
        have h1 := (abs_le.1 (rnd_abs_le y)).1
        have h2 := rnd_le_neg_two_zpow hx (by have := ulpExp_ge y; omega)
        have h3 : (2 : ℚ) ^ (ulpExp y + 53) ≤ 2 ^ (ulpExp x + 52) :=
          zpow_le_zpow_right₀ (by norm_num) (by omega)
        linarith
      · exact le_trans (rnd_nonpos (le_of_lt hx)) (rnd_nonneg (le_of_lt hy))


/-- A number that rounding leaves unchanged is a multiple of `2^(-1074)`. -/
theorem multiple_of_rnd_eq {a : ℚ} (ha : rnd a = a) : ∃ n : Int, a = (n : ℚ) * 2 ^ (-1074 : Int) := by
  obtain ⟨j, hj⟩ := Int.eq_ofNat_of_zero_le (show 0 ≤ ulpExp a + 1074 by
    have := ulpExp_ge a
    omega)
  refine ⟨roundHalfEven (a / 2 ^ ulpExp a) * 2 ^ j, ?_⟩
  have e : ulpExp a = (j : Int) + -1074 := by omega
  conv_lhs => rw [← ha]
  unfold rnd
  rw [e, zpow_add₀ (by norm_num : (2 : ℚ) ≠ 0), zpow_natCast]
  push_cast
  ring

/-- A multiple of `2^(-1074)` below `2^(-1022)` in magnitude is not changed by rounding. -/
theorem rnd_of_small_multiple (n : Int) (h : |(n : ℚ) * 2 ^ (-1074 : Int)| < 2 ^ (-1022 : Int)) :
    rnd ((n : ℚ) * 2 ^ (-1074 : Int)) = (n : ℚ) * 2 ^ (-1074 : Int) := by
  apply rnd_of_scaled n (-1074) _ (le_refl _)
  rw [abs_mul, abs_of_pos (two_zpow_pos _)] at h
  have h2 : |(n : ℚ)| < 2 ^ (52 : Int) := by
    have e : (2 : ℚ) ^ (-1022 : Int) = 2 ^ (52 : Int) * 2 ^ (-1074 : Int) := by
      rw [← zpow_add₀ (by norm_num : (2 : ℚ) ≠ 0)]
      norm_num
    rw [e] at h
    exact lt_of_mul_lt_mul_right h (le_of_lt (two_zpow_pos _))
  have h3 : ((|n| : Int) : ℚ) < ((2 ^ 52 : Int) : ℚ) := by
    rw [Int.cast_abs]
    norm_num at h2 ⊢
    exact h2
  have h4 : |n| < 2 ^ 52 := by exact_mod_cast h3
  omega

theorem two_zpow_ulpExp_le (x : ℚ) (hx : 2 ^ (-1022 : Int) ≤ |x|) :
    2 ^ ulpExp x ≤ |x| * 2 ^ (-52 : Int) := by
  have h := two_zpow_ulpExp_le_abs x hx
  rw [zpow_add₀ (by norm_num : (2 : ℚ) ≠ 0)] at h
  have hp := two_zpow_pos (ulpExp x)
  norm_num at h ⊢
  linarith

/-- The product of the rounded difference of two doubles with a factor in `[0, 1 - 2^(-32)]`
rounds to at most the exact difference. -/
theorem rnd_mul_rnd_sub_le (a b r : ℚ) (ha : rnd a = a) (hb : rnd b = b) (hab : a ≤ b)
    (hr0 : 0 ≤ r) (hr1 : r ≤ 1 - 1 / 2 ^ 32) : rnd (r * rnd (b - a)) ≤ b - a := by
  have hx0 : 0 ≤ b - a := by linarith
  have hd0 : 0 ≤ rnd (b - a) := rnd_nonneg hx0
  rcases lt_or_le (b - a) (2 ^ (-1022 : Int)) with hs | hn
  · obtain ⟨na, hna⟩ := multiple_of_rnd_eq ha
    obtain ⟨nb, hnb⟩ := multiple_of_rnd_eq hb
    have e : b - a = ((nb - na : Int) : ℚ) * 2 ^ (-1074 : Int) := by
      rw [hna, hnb]
      push_cast
      ring
    have hd : rnd (b - a) = b - a := by
      rw [e]
      apply rnd_of_small_multiple
      rw [← e, abs_of_nonneg hx0]
      exact hs
    rw [hd]
    have : r * (b - a) ≤ b - a := by nlinarith
    calc rnd (r * (b - a)) ≤ rnd (b - a) := rnd_mono this
      _ = b - a := hd
  · have hxa : |b - a| = b - a := abs_of_nonneg hx0
    have hu := two_zpow_ulpExp_le (b - a) (by rw [hxa]; exact hn)
    rw [hxa] at hu
    have hd := (abs_le.1 (rnd_sub_le (b - a))).2
    have hy0 : 0 ≤ r * rnd (b - a) := mul_nonneg hr0 hd0
    have hp := (abs_le.1 (rnd_sub_le (r * rnd (b - a)))).2
    have hpos : 0 < b - a := lt_of_lt_of_le (two_zpow_pos _) hn
    have hyx : r * rnd (b - a) ≤ b - a := by
      norm_num at hu
      nlinarith
    have hu2 : (2 : ℚ) ^ ulpExp (r * rnd (b - a)) ≤ 2 ^ ulpExp (b - a) :=
      zpow_le_zpow_right₀ (by norm_num) (ulpExp_mono (by
        rw [abs_of_nonneg hy0, hxa]
        exact hyx))
    norm_num at hu
    nlinarith

theorem fl_of_lt {x : ℚ} (h : |rnd x| < 2 ^ (1024 : Int)) : fl x = some (rnd x) := by
  unfold fl
  rw [if_pos h]

theorem fl_eq_some {x y : ℚ} (h : fl x = some y) : y = rnd x ∧ |rnd x| < 2 ^ (1024 : Int) := by
  unfold fl at h
  split at h
  · exact ⟨(Option.some.inj h).symm, by assumption⟩
  · exact absurd h (by simp)

theorem isDouble_iff (a : ℚ) : IsDouble a ↔ rnd a = a ∧ |a| < 2 ^ (1024 : Int) := by
  unfold IsDouble
  constructor
  · intro h
    obtain ⟨h1, h2⟩ := fl_eq_some h
    rw [← h1] at h2
    exact ⟨h1.symm, h2⟩
  · intro h
    have := fl_of_lt (x := a) (by rw [h.1]; exact h.2)
    rw [h.1] at this
    exact this

theorem isDouble_of_scaled (a : ℚ) (m k : Int) (ha : a = (m : ℚ) * 2 ^ k) (hm : |m| < 2 ^ 53)
    (hk : -1074 ≤ k) (hlt : |a| < 2 ^ (1024 : Int)) : IsDouble a := by
  rw [isDouble_iff]
  refine ⟨?_, hlt⟩
  rw [ha]
  exact rnd_of_scaled m k hm hk

theorem fl_zero : fl 0 = some 0 := by
  have := fl_of_lt (x := 0) (by rw [rnd_zero, abs_zero]; exact two_zpow_pos _)
  rw [rnd_zero] at this
  exact this

theorem roundHalfEven_eq_of_near (q : ℚ) (n : Int) (h : |q - n| < 1 / 2) :
    roundHalfEven q = n := by
  obtain ⟨h1, h2⟩ := roundHalfEven_bounds q
  rw [abs_lt] at h
  have a1 : ((roundHalfEven q : Int) : ℚ) < ((n + 1 : Int) : ℚ) := by
    push_cast
    linarith
  have a2 : ((n - 1 : Int) : ℚ) < ((roundHalfEven q : Int) : ℚ) := by
    push_cast
    linarith
  have b1 : roundHalfEven q < n + 1 := by exact_mod_cast a1
  have b2 : n - 1 < roundHalfEven q := by exact_mod_cast a2
  omega

theorem ulpExp_eq_of_bounds (x : ℚ) (e : Int) (he : -1022 ≤ e) (h1 : 2 ^ e ≤ |x|)
    (h2 : |x| < 2 ^ (e + 1)) : ulpExp x = e - 52 := by
  have hpos : 0 < |x| := lt_of_lt_of_le (two_zpow_pos e) h1
  have hx0 : x ≠ 0 := abs_pos.1 hpos
  have l1 : e ≤ Int.log 2 |x| :=
    (Int.zpow_le_iff_le_log (b := 2) (by norm_num) hpos).1 (by push_cast; exact h1)
  have l2 : Int.log 2 |x| < e + 1 :=
    (Int.lt_zpow_iff_log_lt (b := 2) (by norm_num) hpos).1 (by push_cast; exact h2)
  unfold ulpExp
  rw [if_neg hx0, max_eq_left (by omega)]
  omega

theorem rnd_eq_of_near (x : ℚ) (e n : Int) (he : -1022 ≤ e) (h1 : 2 ^ e ≤ |x|)
    (h2 : |x| < 2 ^ (e + 1)) (hn : |x / 2 ^ (e - 52) - n| < 1 / 2) :
    rnd x = (n : ℚ) * 2 ^ (e - 52) := by
  unfold rnd
  rw [ulpExp_eq_of_bounds x e he h1 h2, roundHalfEven_eq_of_near _ n hn]

/-- Bounds of `fl(fl(r * fl(b - a)) + a)` for doubles `a <= b` and `0 <= r <= 1 - 2^(-32)`,
when the subtraction does not overflow. -/
theorem uniform_value_bounds (a b r : ℚ) (ha : IsDouble a) (hb : IsDouble b) (hab : a ≤ b)
    (hr0 : 0 ≤ r) (hr1 : r ≤ 1 - 1 / 2 ^ 32) (hfin : fl (b - a) ≠ none) :
    ∃ res, (fl (b - a)).bind (fun d => (fl (r * d)).bind (fun p => fl (p + a))) = some res ∧
      a ≤ res ∧ res ≤ b := by
  obtain ⟨ha1, ha2⟩ := (isDouble_iff a).1 ha
  obtain ⟨hb1, hb2⟩ := (isDouble_iff b).1 hb
  obtain ⟨d, hd⟩ := Option.ne_none_iff_exists'.1 hfin
  obtain ⟨hd1, hd2⟩ := fl_eq_some hd
  have hx0 : 0 ≤ b - a := by linarith
  have hd0 : 0 ≤ rnd (b - a) := rnd_nonneg hx0
  have hp0 : 0 ≤ rnd (r * rnd (b - a)) := rnd_nonneg (mul_nonneg hr0 hd0)
  have hpd : rnd (r * rnd (b - a)) ≤ rnd (b - a) := by
    have : r * rnd (b - a) ≤ rnd (b - a) := by nlinarith
    calc rnd (r * rnd (b - a)) ≤ rnd (rnd (b - a)) := rnd_mono this
      _ = rnd (b - a) := rnd_idem _
  have hpx := rnd_mul_rnd_sub_le a b r ha1 hb1 hab hr0 hr1
  have hpfin : |rnd (r * rnd (b - a))| < 2 ^ (1024 : Int) := by
    rw [abs_of_nonneg hp0]
    exact lt_of_le_of_lt hpd (lt_of_le_of_lt (le_abs_self _) hd2)
  have hlo : a ≤ rnd (rnd (r * rnd (b - a)) + a) := by
    calc a = rnd a := ha1.symm
      _ ≤ rnd (rnd (r * rnd (b - a)) + a) := rnd_mono (by linarith)
  have hhi : rnd (rnd (r * rnd (b - a)) + a) ≤ b := by
    calc rnd (rnd (r * rnd (b - a)) + a) ≤ rnd b := rnd_mono (by linarith)
      _ = b := hb1
  have hrfin : |rnd (rnd (r * rnd (b - a)) + a)| < 2 ^ (1024 : Int) := by
    rw [abs_lt] at ha2 hb2 ⊢
    constructor <;> linarith [ha2.1, hb2.2]
  refine ⟨rnd (rnd (r * rnd (b - a)) + a), ?_, hlo, hhi⟩
  rw [hd, Option.some_bind, hd1, fl_of_lt hpfin, Option.some_bind, fl_of_lt hrfin]

theorem uniform_value_same (a r : ℚ) (ha : IsDouble a) :
    (fl (a - a)).bind (fun d => (fl (r * d)).bind (fun p => fl (p + a))) = some a := by
  rw [sub_self, fl_zero, Option.some_bind, mul_zero, fl_zero, Option.some_bind, zero_add]
  exact ha

theorem isDouble_neg_one : IsDouble (-1) :=
  isDouble_of_scaled (-1) (-1) 0 (by norm_num) (by norm_num) (by norm_num) (by norm_num)

theorem isDouble_one : IsDouble 1 :=
  isDouble_of_scaled 1 1 0 (by norm_num) (by norm_num) (by norm_num) (by norm_num)

theorem isDouble_1e16 : IsDouble (10 ^ 16) :=
  isDouble_of_scaled (10 ^ 16) (5 ^ 16) 16 (by norm_num) (by norm_num) (by norm_num)
    (by norm_num)

theorem isDouble_1e16_add_2 : IsDouble (10 ^ 16 + 2) :=
  isDouble_of_scaled (10 ^ 16 + 2) (5000000000000001) 1 (by norm_num) (by norm_num)
    (by norm_num) (by norm_num)

/-- In double arithmetic `fl(fl(r * fl((1e16 + 2) - 1e16)) + 1e16)` is `1e16 + 2` for
`r = 3499211612 / 2^32`. -/
theorem uniform_value_1e16 :
    (fl ((10 ^ 16 + 2 : ℚ) - 10 ^ 16)).bind (fun d =>
      (fl ((3499211612 : ℚ) * (1 / 4294967296) * d)).bind (fun p => fl (p + 10 ^ 16)))
      = some (10 ^ 16 + 2) := by
  have h1 : fl ((10 ^ 16 + 2 : ℚ) - 10 ^ 16) = some 2 := by
    rw [show (10 ^ 16 + 2 : ℚ) - 10 ^ 16 = 2 by norm_num]
    exact isDouble_of_scaled 2 1 1 (by norm_num) (by norm_num) (by norm_num) (by norm_num)
  have h2 : fl ((3499211612 : ℚ) * (1 / 4294967296) * 2) = some (874802903 / 536870912) := by
    rw [show (3499211612 : ℚ) * (1 / 4294967296) * 2 = 874802903 / 536870912 by norm_num]
    exact isDouble_of_scaled _ 874802903 (-29) (by norm_num) (by norm_num) (by norm_num)
      (by rw [abs_of_pos (by norm_num)]; norm_num)
  have h3 : rnd ((874802903 : ℚ) / 536870912 + 10 ^ 16) = 10 ^ 16 + 2 := by
    rw [rnd_eq_of_near _ 53 5000000000000001 (by norm_num)
      (by rw [abs_of_pos (by norm_num)]; norm_num)
      (by rw [abs_of_pos (by norm_num)]; norm_num)
      (by rw [abs_lt]; constructor <;> norm_num)]
    norm_num
  have h4 : fl ((874802903 : ℚ) / 536870912 + 10 ^ 16) = some (10 ^ 16 + 2) := by
    have := fl_of_lt (x := (874802903 : ℚ) / 536870912 + 10 ^ 16) (by
      rw [h3, abs_of_pos (by norm_num)]
      norm_num)
    rw [h3] at this
    exact this
  rw [h1, Option.some_bind, h2, Option.some_bind, h4]

/-- The difference of the largest double and its opposite overflows. -/
theorem fl_sub_overflow :
    fl ((2 ^ 1024 - 2 ^ 971 : ℚ) - -(2 ^ 1024 - 2 ^ 971)) = none := by
  have e : (2 ^ 1024 - 2 ^ 971 : ℚ) - -(2 ^ 1024 - 2 ^ 971)
      = ((2 ^ 53 - 1 : Int) : ℚ) * 2 ^ (972 : Int) := by
    norm_num
  have h := rnd_of_scaled (2 ^ 53 - 1) 972 (by norm_num) (by norm_num)
  unfold fl
  rw [e, h, if_neg]
  rw [abs_of_pos (by norm_num)]
  norm_num

theorem isDouble_max : IsDouble (2 ^ 1024 - 2 ^ 971) :=
  isDouble_of_scaled _ (2 ^ 53 - 1) 971 (by norm_num) (by norm_num) (by norm_num)
    (by rw [abs_of_pos (by norm_num)]; norm_num)

theorem isDouble_neg_max : IsDouble (-(2 ^ 1024 - 2 ^ 971)) :=
  isDouble_of_scaled _ (-(2 ^ 53 - 1)) 971 (by norm_num) (by norm_num) (by norm_num)
    (by rw [abs_of_neg (by norm_num)]; norm_num)

/-- The first word drawn in the initial state (default seed `5489`). -/
theorem first_word_initial : (genrand_int32 initial).1 = 3499211612 := by
  rw [genrand_int32_of_ge initial (by decide), generate_default_seed initial rfl,
    ← genrand_int32_of_ge _ (by rw [init_genrand_mti]),
    genrand_int32_of_eq_N _ (init_genrand_mti _ _)]
  simp only
  rw [spec_twist_read_low _ 0 (by decide)]
  simp only [Nat.zero_add]
  rw [init_genrand_read _ _ _ (by decide), init_genrand_read _ _ _ (by decide),
    init_genrand_read _ _ _ (by decide)]
  exact (List.cons.inj first_block_5489).1

theorem isDouble_real2 (w : Nat) (hw : w < 2 ^ 32) : IsDouble ((w : ℚ) / 2 ^ 32) := by
  have hq : (w : ℚ) < 4294967296 := by exact_mod_cast hw
  have hq0 : (0 : ℚ) ≤ (w : ℚ) := Nat.cast_nonneg w
  refine isDouble_of_scaled _ (w : Int) (-32) ?_ ?_ (by norm_num) ?_
  · push_cast
    rw [zpow_neg]
    norm_num
    ring
  · rw [abs_of_nonneg (by omega)]
    omega
  · rw [abs_of_nonneg (by positivity)]
    have : (w : ℚ) / 2 ^ 32 < 1 := by
      rw [div_lt_one (by norm_num)]
      norm_num
      exact_mod_cast hq
    exact lt_trans this (by norm_num)

/-- C15, as the code has it. For finite doubles `low <= high` and every state with words
below `2^32`, `uniform(low, high)` has the state effect of one draw and computes, in double
arithmetic, `fl(fl(r * fl(high - low)) + low)` with `r = w/2^32` for the next raw word `w`
(`r` is a double as it stands); when `high - low` does not overflow the result is finite and
`low <= result <= high`; and `uniform(a, a)` returns `a`. -/
theorem uniform_spec (low high : ℚ) (st : State) (hw : Words32 st) (hl : IsDouble low)
    (hh : IsDouble high) (hlh : low ≤ high) :
    (uniform low high st).2 = (genrand_int32 st).2 ∧
    (uniform low high st).1 =
      (fl (high - low)).bind (fun d =>
        (fl (((genrand_int32 st).1 : ℚ) / 2 ^ 32 * d)).bind (fun p => fl (p + low))) ∧
    IsDouble (((genrand_int32 st).1 : ℚ) / 2 ^ 32) ∧
    (fl (high - low) ≠ none →
      ∃ res, (uniform low high st).1 = some res ∧ low ≤ res ∧ res ≤ high) ∧
    (uniform low low st).1 = some low := by
  have h := genrand_int32_lt st hw
  have e : ((genrand_int32 st).1 : ℚ) * (1 / 4294967296) = ((genrand_int32 st).1 : ℚ) / 2 ^ 32 := by
    norm_num
    ring
  unfold uniform genrand_real2
  simp only
  rw [e]
  generalize (genrand_int32 st).1 = w at h
  have hq : (w : ℚ) ≤ 4294967295 := by
    have : w ≤ 4294967295 := by omega
    exact_mod_cast this
  have hq0 : (0 : ℚ) ≤ (w : ℚ) := Nat.cast_nonneg w
  refine ⟨trivial, rfl, isDouble_real2 w h, fun hfin => ?_, uniform_value_same low _ hl⟩
  refine uniform_value_bounds low high _ hl hh hlh (by positivity) ?_ hfin
  rw [div_le_iff₀ (by norm_num)]
  norm_num
  linarith

theorem uniform_spec_witness :
    Words32 initial ∧ IsDouble (-1) ∧ IsDouble 1 ∧ (-1 : ℚ) ≤ 1 ∧
    ((uniform (-1) 1 initial).2 = (genrand_int32 initial).2 ∧
      (uniform (-1) 1 initial).1 =
        (fl (1 - -1)).bind (fun d =>
          (fl (((genrand_int32 initial).1 : ℚ) / 2 ^ 32 * d)).bind (fun p => fl (p + -1))) ∧
      IsDouble (((genrand_int32 initial).1 : ℚ) / 2 ^ 32) ∧
      (fl (1 - -1) ≠ none →
        ∃ res, (uniform (-1) 1 initial).1 = some res ∧ -1 ≤ res ∧ res ≤ 1) ∧
      (uniform (-1) (-1) initial).1 = some (-1)) :=
  ⟨words32_initial 625, isDouble_neg_one, isDouble_one, by norm_num,
    uniform_spec (-1) 1 initial (words32_initial 625) isDouble_neg_one isDouble_one
      (by norm_num)⟩

/-- C15 fails on the code: in the initial state the next raw word is `3499211612`, and with
the doubles `low = 1e16 < high = 1e16 + 2` the sum `1e16 + 1.62...` rounds to `1e16 + 2`, so
`uniform(low, high)` returns exactly `high`, which is neither below `high` nor the exact value
of `r * (high - low) + low`; and with `low = -DBL_MAX`, `high = DBL_MAX` the subtraction
overflows and the result is not finite. -/
theorem uniform_rounds_to_high :
    IsDouble (10 ^ 16) ∧ IsDouble (10 ^ 16 + 2) ∧ (10 ^ 16 : ℚ) < 10 ^ 16 + 2 ∧
    (genrand_int32 initial).1 = 3499211612 ∧
    (uniform (10 ^ 16) (10 ^ 16 + 2) initial).1 = some (10 ^ 16 + 2) ∧
    ((genrand_int32 initial).1 : ℚ) / 2 ^ 32 * ((10 ^ 16 + 2) - 10 ^ 16) + 10 ^ 16
      < 10 ^ 16 + 2 ∧
    IsDouble (-(2 ^ 1024 - 2 ^ 971)) ∧ IsDouble (2 ^ 1024 - 2 ^ 971) ∧
    (uniform (-(2 ^ 1024 - 2 ^ 971)) (2 ^ 1024 - 2 ^ 971) initial).1 = none := by
  refine ⟨isDouble_1e16, isDouble_1e16_add_2, by norm_num, first_word_initial, ?_, ?_,
    isDouble_neg_max, isDouble_max, ?_⟩
  · unfold uniform genrand_real2
    simp only
    rw [first_word_initial]
    exact uniform_value_1e16
  · rw [first_word_initial]
    norm_num
  · unfold uniform
    simp only
    rw [fl_sub_overflow]
    rfl

end MT19937
